import Mathlib

/-!
Verification of the storage core of the BusTub-derived repository:
shallow embeddings of the extendible hash table
(`src/container/hash/extendible_hash_table.cpp`), the LRU-K replacer
(`src/buffer/lru_k_replacer.cpp`), the buffer pool manager instance
(`src/buffer/buffer_pool_manager_instance.cpp`) and the B+ tree pages and
operations (`src/storage/...`), together with theorems settling the spec
claims about them.
-/

set_option autoImplicit false

namespace BusTub

/-! ## Extendible hash table (`extendible_hash_table.cpp`)

Buckets are kept in an arena (`buckets`); the directory `dir` stores arena
indices, so two directory slots alias the same bucket exactly when they hold
the same index (mirroring the shared `std::shared_ptr<Bucket>` entries). -/

/-- A bucket: capacity `size` (`size_`), local depth (`depth_`) and the list
of entries (`list_`, a `std::list<std::pair<K, V>>`). -/
structure Bucket (K V : Type) where
  size : Nat
  depth : Nat
  list : List (K × V)
deriving DecidableEq, Repr

/-- `ExtendibleHashTable` state: `global_depth_`, `bucket_size_`,
`num_buckets_`, the directory `dir_` (arena indices) and the bucket arena. -/
structure ExtendibleHashTable (K V : Type) where
  globalDepth : Nat
  bucketSize : Nat
  numBuckets : Nat
  dir : List Nat
  buckets : List (Bucket K V)
deriving DecidableEq, Repr

section ExtendibleHash

variable {K V : Type} [DecidableEq K]

/-- The scan of a `std::list<std::pair<K, V>>` for the first pair whose key
matches (the loop shared by `Bucket::Find` / `Remove` / `Insert`). -/
def listFindFirst (l : List (K × V)) (key : K) : Option V :=
  match l with
  | [] => none
  | p :: rest => if p.1 = key then some p.2 else listFindFirst rest key

/-- `Bucket::Find`: scan `list_` for the first pair whose key matches. -/
def Bucket.Find (b : Bucket K V) (key : K) : Option V :=
  listFindFirst b.list key

/-- Removal of the first entry with the given key from a `std::list`
(`Bucket::Remove`'s loop); returns whether a match was erased. -/
def listRemoveFirst (l : List (K × V)) (key : K) : Bool × List (K × V) :=
  match l with
  | [] => (false, [])
  | p :: rest =>
    if p.1 = key then (true, rest)
    else
      let r := listRemoveFirst rest key
      (r.1, p :: r.2)

/-- `Bucket::Remove`: erase the first matching entry, reporting success. -/
def Bucket.Remove (b : Bucket K V) (key : K) : Bool × Bucket K V :=
  let r := listRemoveFirst b.list key
  (r.1, { b with list := r.2 })

/-- Overwrite of the first matching entry (the scan at the start of
`Bucket::Insert` that assigns `(*it).second = value`). -/
def listOverwrite (l : List (K × V)) (key : K) (value : V) : List (K × V) :=
  match l with
  | [] => []
  | p :: rest =>
    if p.1 = key then (p.1, value) :: rest
    else p :: listOverwrite rest key value

/-- `Bucket::IsFull`. Modelled from the spec: the bucket header is not under
`src/`; the spec gives each bucket "a capacity of `bucket_size` entries", so
the bucket is full when `list_.size() == size_`. -/
def Bucket.IsFull (b : Bucket K V) : Bool :=
  b.list.length == b.size

/-- `Bucket::Insert`: overwrite in place if the key exists (before the
`IsFull` check), otherwise fail when full, otherwise append. -/
def Bucket.Insert (b : Bucket K V) (key : K) (value : V) : Bool × Bucket K V :=
  if (listFindFirst b.list key).isSome then
    (true, { b with list := listOverwrite b.list key value })
  else if b.IsFull then (false, b)
  else (true, { b with list := b.list ++ [(key, value)] })

variable (hashFn : K → Nat)

/-- `ExtendibleHashTable` constructor: depth 0, one empty bucket. -/
def ExtendibleHashTable.new (bucketSize : Nat) : ExtendibleHashTable K V :=
  { globalDepth := 0, bucketSize := bucketSize, numBuckets := 1,
    dir := [0], buckets := [{ size := bucketSize, depth := 0, list := [] }] }

/-- `IndexOf`: `std::hash<K>()(key) & ((1 << global_depth_) - 1)`. -/
def ExtendibleHashTable.IndexOf (st : ExtendibleHashTable K V) (key : K) : Nat :=
  hashFn key % 2 ^ st.globalDepth

/-- The bucket at arena index `i` (directory entries are always in range in
reachable states; out-of-range reads default to an empty bucket). -/
def ExtendibleHashTable.bucketAt (st : ExtendibleHashTable K V) (i : Nat) : Bucket K V :=
  st.buckets.getD i { size := 0, depth := 0, list := [] }

/-- `ExtendibleHashTable::Find`: look the key up in its directory slot's
bucket. -/
def ExtendibleHashTable.Find (st : ExtendibleHashTable K V) (key : K) : Option V :=
  (st.bucketAt (st.dir.getD (st.IndexOf hashFn key) 0)).Find key

/-- `ExtendibleHashTable::Remove`: erase the key from its slot's bucket. -/
def ExtendibleHashTable.Remove (st : ExtendibleHashTable K V) (key : K) :
    Bool × ExtendibleHashTable K V :=
  let i := st.dir.getD (st.IndexOf hashFn key) 0
  let r := (st.bucketAt i).Remove key
  (r.1, { st with buckets := st.buckets.set i r.2 })

/-- The loop `while (idx < s) idx += m2;` of `InsertImp`'s directory fix-up,
with `m2 = 2 ^ e`. Each iteration grows `idx` by at least one, so any `fuel`
of at least `s` makes this identical to the C++ loop; fuel keeps the
recursion structural. -/
def bumpIndex (fuel : Nat) (idx : Nat) (e : Nat) (s : Nat) : Nat :=
  match fuel with
  | 0 => idx
  | fuel + 1 => if idx < s then bumpIndex fuel (idx + 2 ^ e) e s else idx

/-- The loop `while (idx + m2 < s) { dir_[idx + m2] = dir_[idx]; idx += m2; }`
of `InsertImp`'s directory fix-up, with `m2 = 2 ^ e`. As in `bumpIndex`, any
`fuel` of at least `dir.length` matches the C++ loop exactly. -/
def propagateDir (fuel : Nat) (dir : List Nat) (idx : Nat) (e : Nat) : List Nat :=
  match fuel with
  | 0 => dir
  | fuel + 1 =>
    if idx + 2 ^ e < dir.length then
      propagateDir fuel (dir.set (idx + 2 ^ e) (dir.getD idx 0)) (idx + 2 ^ e) e
    else dir

/-- The redistribution loop of `InsertImp`: every snapshot entry whose
`IndexOf` bit `m1 = 2 ^ dep` differs from the full slot's bit is removed from
the old bucket (arena index `oriIdx`) and inserted into the fresh sibling
bucket `nb`. `gd` is the (already doubled) global depth. -/
def redistribute (gd oriIdx idx dep : Nat) (items : List (K × V))
    (bks : List (Bucket K V)) (nb : Bucket K V) :
    List (Bucket K V) × Bucket K V :=
  match items with
  | [] => (bks, nb)
  | p :: rest =>
    let k := hashFn p.1 % 2 ^ gd
    if idx &&& 2 ^ dep ≠ k &&& 2 ^ dep then
      let ori := bks.getD oriIdx { size := 0, depth := 0, list := [] }
      let bks' := bks.set oriIdx (ori.Remove p.1).2
      let nb' := (nb.Insert p.1 p.2).2
      redistribute gd oriIdx idx dep rest bks' nb'
    else redistribute gd oriIdx idx dep rest bks nb

/-- The split performed by `InsertImp` when the target bucket rejects the
insert: increment the bucket's local depth (doubling the directory when it
equalled the global depth), redistribute the bucket's entries into a fresh
sibling, fix the directory pointers and bump `num_buckets_`. -/
def ExtendibleHashTable.splitStep (st : ExtendibleHashTable K V) (key : K) :
    ExtendibleHashTable K V :=
  let idx := st.IndexOf hashFn key
  let oriIdx := st.dir.getD idx 0
  let dep := (st.bucketAt oriIdx).depth
  -- auto bucket = new Bucket(bucket_size_, dep + 1);
  let nb : Bucket K V := { size := st.bucketSize, depth := dep + 1, list := [] }
  -- ori_bucket->IncrementDepth();
  let st1 := { st with
    buckets := st.buckets.set oriIdx { st.bucketAt oriIdx with depth := dep + 1 } }
  -- if local depth == global depth, double the directory
  let st2 :=
    if dep = st1.globalDepth then
      { st1 with globalDepth := st1.globalDepth + 1, dir := st1.dir ++ st1.dir }
    else st1
  -- split the full bucket into two buckets
  let items := (st2.bucketAt oriIdx).list
  let rd := redistribute hashFn st2.globalDepth oriIdx idx dep items st2.buckets nb
  let s := st2.dir.length
  let idx2 := bumpIndex (s + 1) (idx + 2 ^ dep) (dep + 1) s % s
  let newIdx := rd.1.length
  let dir2 := propagateDir (s + 1) (st2.dir.set idx2 newIdx) idx2 (dep + 1)
  { st2 with buckets := rd.1 ++ [rd.2], dir := dir2, numBuckets := st2.numBuckets + 1 }

/-- `ExtendibleHashTable::InsertImp`. The C++ recursion ("retry the insert")
is modelled with explicit `fuel`; `none` stands for running out of fuel. -/
def ExtendibleHashTable.InsertImp :
    Nat → ExtendibleHashTable K V → K → V → Option (ExtendibleHashTable K V)
  | 0, _, _, _ => none
  | fuel + 1, st, key, value =>
    if ((st.bucketAt (st.dir.getD (st.IndexOf hashFn key) 0)).Insert key value).1 then
      some { st with
        buckets := st.buckets.set (st.dir.getD (st.IndexOf hashFn key) 0)
          ((st.bucketAt (st.dir.getD (st.IndexOf hashFn key) 0)).Insert key value).2 }
    else ExtendibleHashTable.InsertImp fuel (st.splitStep hashFn key) key value

end ExtendibleHash

/-- A hash-table operation, for reasoning about operation sequences
(`Insert` runs `InsertImp`; `Find` and `Remove` are as in the source). -/
inductive EhtOp (K V : Type) where
  | insert (k : K) (v : V)
  | remove (k : K)
  | find (k : K)

section ExtendibleHashOps

variable {K V : Type} [DecidableEq K] (hashFn : K → Nat)

/-- Apply one operation; `Find` does not change the state, `Insert` carries
the recursion fuel of `InsertImp`. -/
def applyEhtOp (fuel : Nat) (st : ExtendibleHashTable K V) :
    EhtOp K V → Option (ExtendibleHashTable K V)
  | .insert k v => ExtendibleHashTable.InsertImp hashFn fuel st k v
  | .remove k => some (st.Remove hashFn k).2
  | .find _ => some st

/-- Run a sequence of hash-table operations. -/
def runEhtOps (fuel : Nat) (st : ExtendibleHashTable K V) :
    List (EhtOp K V) → Option (ExtendibleHashTable K V)
  | [] => some st
  | op :: rest => (applyEhtOp hashFn fuel st op).bind fun st' => runEhtOps fuel st' rest

end ExtendibleHashOps

/-- `std::hash<int>` in libstdc++ is the identity on non-negative values;
the scenario keys 0, 4, 8 are non-negative. -/
def natIdHash : Nat → Nat := fun n => n

/-- The spec's extendible-hash split scenario: `bucket_size = 2`, then
`Insert(0,10)`, `Insert(4,20)`, `Insert(8,30)` (fuel 10 is ample: the third
insert recurses three times). -/
def c7Run : Option (ExtendibleHashTable Nat Nat) :=
  (ExtendibleHashTable.InsertImp natIdHash 10 (ExtendibleHashTable.new 2) 0 10).bind fun s1 =>
    (ExtendibleHashTable.InsertImp natIdHash 10 s1 4 20).bind fun s2 =>
      ExtendibleHashTable.InsertImp natIdHash 10 s2 8 30

/-- A table whose single bucket is full and holds key 1: used to exercise
the duplicate-overwrite path of `Insert` on a full bucket. -/
def c8Table : ExtendibleHashTable Nat Nat :=
  { globalDepth := 0, bucketSize := 2, numBuckets := 1, dir := [0],
    buckets := [{ size := 2, depth := 0, list := [(1, 10), (2, 20)] }] }

/-! ## LRU-K replacer (`lru_k_replacer.cpp`)

`evictable_` (a `std::map<frame_id_t, bool>`) is an association list kept in
ascending key order; `times_` (`frame_id → access timestamps`) is a total
function defaulting to `[]`, matching `operator[]`'s default construction;
`frames_` (a `std::set`) is a list whose membership is what matters. -/

/-- Look a key up in the `evictable_` association list. -/
def mapFind? (l : List (Nat × Bool)) (key : Nat) : Option Bool :=
  match l with
  | [] => none
  | p :: rest => if p.1 = key then some p.2 else mapFind? rest key

/-- Write `key ↦ b`, inserting in ascending key order when absent
(`std::map` keeps its entries sorted by key). -/
def mapSet (l : List (Nat × Bool)) (key : Nat) (b : Bool) : List (Nat × Bool) :=
  match l with
  | [] => [(key, b)]
  | p :: rest =>
    if p.1 = key then (key, b) :: rest
    else if key < p.1 then (key, b) :: p :: rest
    else p :: mapSet rest key b

/-- Erase a key from the `evictable_` association list. -/
def mapErase (l : List (Nat × Bool)) (key : Nat) : List (Nat × Bool) :=
  match l with
  | [] => []
  | p :: rest => if p.1 = key then rest else p :: mapErase rest key

/-- `LRUKReplacer` state: `k_`, `replacer_size_`, `current_timestamp_`,
`frames_`, `evictable_`, `times_` and `curr_size_`. -/
structure LRUKReplacer where
  k : Nat
  replacerSize : Nat
  currentTimestamp : Nat
  frames : List Nat
  evictable : List (Nat × Bool)
  times : Nat → List Int
  currSize : Nat

/-- The `LRUKReplacer` constructor: frames `1 .. num_frames` are pre-tracked
with empty histories and marked non-evictable. -/
def LRUKReplacer.new (numFrames k : Nat) : LRUKReplacer :=
  { k := k, replacerSize := numFrames, currentTimestamp := 0,
    frames := List.range' 1 numFrames,
    evictable := (List.range' 1 numFrames).map (fun i => (i, false)),
    times := fun _ => [], currSize := 0 }

/-- `LRUKReplacer::RecordAccess`: track the frame and append the current
timestamp to its history. (The `BUSTUB_ASSERT` range check guards a
programming error and is not modelled.) -/
def LRUKReplacer.RecordAccess (st : LRUKReplacer) (f : Nat) : LRUKReplacer :=
  { st with
    frames := if st.frames.contains f then st.frames else st.frames ++ [f],
    times := fun g => if g = f then st.times f ++ [(st.currentTimestamp : Int)] else st.times g,
    currentTimestamp := st.currentTimestamp + 1 }

/-- `LRUKReplacer::SetEvictable`. `evictable_[frame_id]` default-inserts a
`false` entry when the frame has no entry yet, which `mapSet` reproduces in
the unchanged branch. -/
def LRUKReplacer.SetEvictable (st : LRUKReplacer) (f : Nat) (b : Bool) : LRUKReplacer :=
  if st.frames.contains f = false then st
  else if (mapFind? st.evictable f).getD false ≠ b then
    { st with
      evictable := mapSet st.evictable f b,
      currSize := if b then st.currSize + 1 else st.currSize - 1 }
  else { st with evictable := mapSet st.evictable f ((mapFind? st.evictable f).getD false) }

/-- The timestamp of a frame's k-th most recent access,
`cur_times[cur_times.size() - k_]`. -/
def LRUKReplacer.kthRecent (st : LRUKReplacer) (f : Nat) : Int :=
  (st.times f).getD ((st.times f).length - st.k) 0

/-- One iteration of `Evict`'s selection loop over `evictable_`. The
accumulator holds `(t, last_time, chosen frame)`; `t = -1` encodes an
infinite K-distance for the current choice. -/
def evictStep (st : LRUKReplacer) (acc : Int × Int × Option Nat) (p : Nat × Bool) :
    Int × Int × Option Nat :=
  if p.2 then
    if (st.times p.1).isEmpty then acc
    else if (st.times p.1).length < st.k then
      if acc.1 ≠ -1 then (-1, (st.times p.1).headD 0, some p.1)
      else if acc.2.1 > (st.times p.1).headD 0 then (-1, (st.times p.1).headD 0, some p.1)
      else acc
    else
      if st.kthRecent p.1 < acc.1 then (st.kthRecent p.1, acc.2.1, some p.1)
      else acc
  else acc

/-- The selection loop of `LRUKReplacer::Evict`: fold over `evictable_`
starting from `t = last_time = current_timestamp_ + 1` and no chosen frame. -/
def LRUKReplacer.evictScan (st : LRUKReplacer) : Int × Int × Option Nat :=
  st.evictable.foldl (evictStep st)
    ((st.currentTimestamp : Int) + 1, (st.currentTimestamp : Int) + 1, none)

/-- `LRUKReplacer::Evict`: on success the victim is erased from
`evictable_`, `times_` and `frames_` and `curr_size_` is decremented. -/
def LRUKReplacer.Evict (st : LRUKReplacer) : Option (Nat × LRUKReplacer) :=
  match st.evictScan.2.2 with
  | none => none
  | some f =>
    some (f, { st with
      currSize := st.currSize - 1,
      evictable := mapErase st.evictable f,
      times := fun g => if g = f then [] else st.times g,
      frames := st.frames.filter (fun g => g != f) })

/-- `LRUKReplacer::Remove`: no-op when the frame is untracked or not
evictable (`evictable_[frame_id]` still default-inserts in the second case). -/
def LRUKReplacer.Remove (st : LRUKReplacer) (f : Nat) : LRUKReplacer :=
  if st.frames.contains f = false then st
  else
    let ev := (mapFind? st.evictable f).getD false
    if ev = false then { st with evictable := mapSet st.evictable f false }
    else
      { st with
        currSize := st.currSize - 1,
        evictable := mapErase st.evictable f,
        times := fun g => if g = f then [] else st.times g,
        frames := st.frames.filter (fun g => g != f) }

/-- `LRUKReplacer::Size`. -/
def LRUKReplacer.Size (st : LRUKReplacer) : Nat := st.currSize

/-- The frames `Evict`'s loop actually considers within a portion `l` of
`evictable_`: marked evictable and with a non-empty history. -/
def candidatesIn (st : LRUKReplacer) (l : List (Nat × Bool)) : List Nat :=
  (l.filter (fun p => p.2 && !(st.times p.1).isEmpty)).map Prod.fst

/-- All evictable frames with a non-empty access history. -/
def LRUKReplacer.candidates (st : LRUKReplacer) : List Nat :=
  candidatesIn st st.evictable

/-- Backward K-distance of a frame: `+∞` with fewer than `k` recorded
accesses, otherwise now minus the timestamp of the k-th most recent access
(`cur_times[cur_times.size() - k_]`). -/
def LRUKReplacer.kdistance (st : LRUKReplacer) (f : Nat) : WithTop Int :=
  if (st.times f).length < st.k then ⊤
  else (((st.currentTimestamp : Int) - st.kthRecent f : Int) : WithTop Int)

/-- The first recorded access timestamp of a frame (`cur_times[0]`). -/
def LRUKReplacer.firstAccess (st : LRUKReplacer) (f : Nat) : Int :=
  (st.times f).headD 0

/-- The reachability invariant of replacer states: established by the
constructor (for `k ≥ 1`) and preserved by every operation. Timestamps are
non-negative and strictly below `current_timestamp_`, strictly increasing
within a frame and pairwise distinct across frames; `evictable_` (a
`std::map`) has strictly increasing keys. It implies `WF`. -/
def LRUKReplacer.Inv (st : LRUKReplacer) : Prop :=
  1 ≤ st.k ∧
  (∀ f : Nat, ∀ x ∈ st.times f, 0 ≤ x ∧ x < (st.currentTimestamp : Int)) ∧
  (∀ f : Nat, List.Pairwise (fun a b => a < b) (st.times f)) ∧
  (∀ f g : Nat, f ≠ g → ∀ x ∈ st.times f, x ∉ st.times g) ∧
  List.Pairwise (fun a b => a < b) (st.evictable.map Prod.fst)

/-- Loop invariant of `Evict`'s selection scan, relative to the candidate
frames `cs` seen so far. With no chosen frame, `t` still holds its initial
value and no candidate was seen; with chosen frame `f`, either `t = -1` and
`f` has infinite K-distance with `last_time` its first access, or `t` is
`f`'s k-th-most-recent timestamp; and `f` beats every candidate seen, with
strictly earlier first access on (infinite) K-distance ties. -/
abbrev ScanInv (st : LRUKReplacer) (cs : List Nat) (acc : Int × Int × Option Nat) : Prop :=
  match acc.2.2 with
  | none => acc.1 = (st.currentTimestamp : Int) + 1 ∧ cs = []
  | some f =>
    f ∈ cs ∧ st.times f ≠ [] ∧
    ((acc.1 = -1 ∧ (st.times f).length < st.k ∧ acc.2.1 = st.firstAccess f) ∨
      (acc.1 ≠ -1 ∧ ¬(st.times f).length < st.k ∧ acc.1 = st.kthRecent f)) ∧
    (∀ g ∈ cs, st.kdistance g ≤ st.kdistance f) ∧
    (∀ g ∈ cs, g ≠ f → st.kdistance g = st.kdistance f →
      st.firstAccess f < st.firstAccess g)

/-- Well-formedness of a replacer state, as established by the constructor
and preserved by every operation: `k ≥ 1`; recorded timestamps are
non-negative, at most `current_timestamp_`, strictly increasing per frame
and pairwise distinct across frames; `evictable_` has no duplicate keys. -/
abbrev LRUKReplacer.WF (st : LRUKReplacer) : Prop :=
  1 ≤ st.k ∧
  (∀ p ∈ st.evictable, ∀ x ∈ st.times p.1, 0 ≤ x ∧ x ≤ (st.currentTimestamp : Int)) ∧
  (∀ p ∈ st.evictable, List.Pairwise (fun a b => a < b) (st.times p.1)) ∧
  (∀ p ∈ st.evictable, ∀ q ∈ st.evictable, p.1 ≠ q.1 →
    ∀ x ∈ st.times p.1, x ∉ st.times q.1) ∧
  (st.evictable.map Prod.fst).Nodup

/-- A reachable state in which frame 1 is evictable but has an empty access
history: the constructor pre-tracks frames, so `SetEvictable` accepts a
frame that was never accessed. -/
def c6State : LRUKReplacer :=
  (LRUKReplacer.new 2 2).SetEvictable 1 true

/-- The spec's LRU-K scenario: `k = 2`, frames 1, 2, 3, access sequence
1, 2, 3, 1, 2, 1, all three frames evictable. Histories: frame 1 ↦ [0, 3, 5],
frame 2 ↦ [1, 4], frame 3 ↦ [2]. -/
def lrukSample : LRUKReplacer :=
  ((((((((LRUKReplacer.new 3 2).RecordAccess 1).RecordAccess 2).RecordAccess 3).RecordAccess
    1).RecordAccess 2).RecordAccess 1).SetEvictable 1 true).SetEvictable 2 true
    |>.SetEvictable 3 true

/-- A reachable state of a fresh 2-frame replacer with `k = 2`: frame 1 is
marked evictable but never accessed (the constructor pre-tracks frames 1 and 2
with empty histories), frame 2 is accessed twice and marked evictable. -/
def c1CexState : LRUKReplacer :=
  ((((LRUKReplacer.new 2 2).SetEvictable 1 true).RecordAccess 2).RecordAccess
    2).SetEvictable 2 true

/-! ## Buffer pool manager (`buffer_pool_manager_instance.cpp`)

Frames are `Page` records indexed by `frame_id`; page data is abstracted to
a single value (`Nat`), with `ResetMemory` writing 0. Disk contents are a
map `page_id → data`. The page table (an `ExtendibleHashTable<page_id_t,
frame_id_t>`, verified separately above) is embedded at its association-map
interface `Find` / `Insert` (same-key overwrite) / `Remove`. Every
operation additionally returns the ordered trace of its disk writes, frame
resets and disk reads, so that ordering claims can be stated. -/

/-- A frame's `Page` object: `page_id_`, `pin_count_`, `is_dirty_` and the
(abstracted) data bytes. -/
structure Page where
  pageId : Int
  pinCount : Int
  isDirty : Bool
  data : Nat
deriving DecidableEq, Repr

/-- A fresh `Page`: invalid page id, unpinned, clean, zeroed memory. -/
def Page.empty : Page :=
  { pageId := -1, pinCount := 0, isDirty := false, data := 0 }

/-- An observable side effect of a buffer pool operation, in order:
`disk_manager_->WritePage`, `Page::ResetMemory`, `disk_manager_->ReadPage`. -/
inductive BpmEvent where
  | write (pid : Int) (data : Nat)
  | reset (fid : Nat)
  | read (pid : Int)
deriving DecidableEq, Repr

/-- Association-map lookup for the page table (`page_table_->Find`). -/
def ptFind? (l : List (Int × Nat)) (key : Int) : Option Nat :=
  match l with
  | [] => none
  | p :: rest => if p.1 = key then some p.2 else ptFind? rest key

/-- Page-table insert: overwrite when present (the extendible hash table
overwrites same-key values), append when absent. -/
def ptInsert (l : List (Int × Nat)) (key : Int) (v : Nat) : List (Int × Nat) :=
  match l with
  | [] => [(key, v)]
  | p :: rest => if p.1 = key then (key, v) :: rest else p :: ptInsert rest key v

/-- Page-table removal of the first entry with the given key. -/
def ptRemove (l : List (Int × Nat)) (key : Int) : List (Int × Nat) :=
  match l with
  | [] => []
  | p :: rest => if p.1 = key then rest else p :: ptRemove rest key

/-- `BufferPoolManagerInstance` state: `pool_size_`, the `pages_` array, the
page table, `pages_exist_`, `free_list_`, the replacer, `next_page_id_` and
the disk contents. -/
structure BufferPoolManagerInstance where
  poolSize : Nat
  pages : Nat → Page
  pageTable : List (Int × Nat)
  pagesExist : List Int
  freeList : List Nat
  replacer : LRUKReplacer
  nextPageId : Int
  disk : Int → Nat

/-- The `BufferPoolManagerInstance` constructor: every frame is in the free
list; the replacer is an `LRUKReplacer(pool_size, replacer_k)`. -/
def BufferPoolManagerInstance.new (poolSize replacerK : Nat) : BufferPoolManagerInstance :=
  { poolSize := poolSize, pages := fun _ => Page.empty, pageTable := [],
    pagesExist := [], freeList := List.range poolSize,
    replacer := LRUKReplacer.new poolSize replacerK, nextPageId := 0,
    disk := fun _ => 0 }

/-- `RecordInReplacer`: `SetEvictable(frame_id, false)` then
`RecordAccess(frame_id)`. -/
def BufferPoolManagerInstance.RecordInReplacer (st : BufferPoolManagerInstance)
    (fid : Nat) : BufferPoolManagerInstance :=
  { st with replacer := ((st.replacer.SetEvictable fid false).RecordAccess fid) }

/-- `AllocatePage`: `next_page_id_++`. -/
def BufferPoolManagerInstance.AllocatePage (st : BufferPoolManagerInstance) :
    Int × BufferPoolManagerInstance :=
  (st.nextPageId, { st with nextPageId := st.nextPageId + 1 })

/-- Update one frame of the `pages_` array. -/
def BufferPoolManagerInstance.setPage (st : BufferPoolManagerInstance) (fid : Nat)
    (p : Page) : BufferPoolManagerInstance :=
  { st with pages := fun g => if g = fid then p else st.pages g }

/-- `std::set::insert` on `pages_exist_` (membership is all that matters). -/
def setInsert (l : List Int) (x : Int) : List Int :=
  if x ∈ l then l else l ++ [x]

/-- `NewPgImp`. Returns `(result, next state, event trace)`; the result is
`some (page_id, frame_id)` for the returned pinned page. -/
def BufferPoolManagerInstance.NewPgImp (st : BufferPoolManagerInstance) :
    Option (Int × Nat) × BufferPoolManagerInstance × List BpmEvent :=
  match st.freeList with
  | fid :: rest =>
    -- there exists an unused frame
    let a := BufferPoolManagerInstance.AllocatePage { st with freeList := rest }
    let pid := a.1
    let st1 := { a.2 with pageTable := ptInsert a.2.pageTable pid fid }
    let st2 := st1.RecordInReplacer fid
    let st3 := st2.setPage fid { pageId := pid, pinCount := 1, isDirty := false, data := 0 }
    let st4 := { st3 with pagesExist := setInsert st3.pagesExist pid }
    (some (pid, fid), st4, [.reset fid])
  | [] =>
    -- there exists an evictable frame
    match st.replacer.Evict with
    | none => (none, st, [])
    | some (fid, rep) =>
      let oldPid := (st.pages fid).pageId
      let a := BufferPoolManagerInstance.AllocatePage { st with replacer := rep }
      let pid := a.1
      let st1 := { a.2 with pageTable := ptInsert a.2.pageTable pid fid }
      let st2 := st1.RecordInReplacer fid
      let wr := (st2.pages fid).isDirty
      let st3 :=
        if wr then { st2 with disk := fun q => if q = oldPid then (st2.pages fid).data else st2.disk q }
        else st2
      let st4 := st3.setPage fid { pageId := pid, pinCount := 1, isDirty := false, data := 0 }
      let st5 := { st4 with pagesExist := setInsert st4.pagesExist pid }
      let st6 := { st5 with
        pagesExist := st5.pagesExist.filter (fun q => q != oldPid),
        pageTable := ptRemove st5.pageTable oldPid }
      (some (pid, fid), st6,
        (if wr then [BpmEvent.write oldPid (st2.pages fid).data] else []) ++ [.reset fid])

/-- `FetchPgImp`. Returns `(result, next state, event trace)`; the result is
`some frame_id` for the returned pinned page. In the hit path the local
`frame_id` is initialised to 0 in the source, which `getD 0` reproduces. -/
def BufferPoolManagerInstance.FetchPgImp (st : BufferPoolManagerInstance) (pid : Int) :
    Option Nat × BufferPoolManagerInstance × List BpmEvent :=
  if pid ∈ st.pagesExist then
    -- the page is in the buffer pool
    let fid := (ptFind? st.pageTable pid).getD 0
    let st1 := st.RecordInReplacer fid
    let st2 := st1.setPage fid { st1.pages fid with pinCount := (st1.pages fid).pinCount + 1 }
    (some fid, st2, [])
  else
    match st.freeList with
    | fid :: rest =>
      -- there exists an unused frame
      let st1 := { st with freeList := rest }
      let st2 := { st1 with pageTable := ptInsert st1.pageTable pid fid }
      let st3 := st2.RecordInReplacer fid
      let st4 := st3.setPage fid
        { pageId := pid, pinCount := 1, isDirty := false, data := st3.disk pid }
      let st5 := { st4 with pagesExist := setInsert st4.pagesExist pid }
      (some fid, st5, [.reset fid, .read pid])
    | [] =>
      match st.replacer.Evict with
      | none => (none, st, [])
      | some (fid, rep) =>
        -- there exists an evictable frame
        let st0 := { st with replacer := rep }
        let oldPid := (st0.pages fid).pageId
        let wr := (st0.pages fid).isDirty
        let st1 :=
          if wr then { st0 with disk := fun q => if q = oldPid then (st0.pages fid).data else st0.disk q }
          else st0
        let st2 := { st1 with
          pagesExist := st1.pagesExist.filter (fun q => q != oldPid),
          pageTable := ptRemove st1.pageTable oldPid }
        let st3 := { st2 with pageTable := ptInsert st2.pageTable pid fid }
        let st4 := st3.RecordInReplacer fid
        let st5 := st4.setPage fid
          { pageId := pid, pinCount := 1, isDirty := false, data := st4.disk pid }
        let st6 := { st5 with pagesExist := setInsert st5.pagesExist pid }
        (some fid, st6,
          (if wr then [BpmEvent.write oldPid (st0.pages fid).data] else []) ++
            [.reset fid, .read pid])

/-- The update `UnpinPgImp` applies to the page: set the dirty flag when
`is_dirty` is true (never cleared), then decrement the pin count. -/
def Page.unpin (p : Page) (isDirty : Bool) : Page :=
  if isDirty then { p with isDirty := true, pinCount := p.pinCount - 1 }
  else { p with pinCount := p.pinCount - 1 }

/-- The successful path of `UnpinPgImp` on frame `fid`: update the page,
and mark the frame evictable when the pin count has reached zero. -/
def BufferPoolManagerInstance.unpinApply (st : BufferPoolManagerInstance) (fid : Nat)
    (isDirty : Bool) : Bool × BufferPoolManagerInstance :=
  if ((st.pages fid).unpin isDirty).pinCount = 0 then
    (true, { st.setPage fid ((st.pages fid).unpin isDirty) with
      replacer := st.replacer.SetEvictable fid true })
  else (true, st.setPage fid ((st.pages fid).unpin isDirty))

/-- `UnpinPgImp`. The local `frame_id` is uninitialised in the source when
the page-table lookup fails; that read is unreachable because
`pages_exist_.count(page_id) == 0` is checked first, and is modelled by
`getD 0`. -/
def BufferPoolManagerInstance.UnpinPgImp (st : BufferPoolManagerInstance) (pid : Int)
    (isDirty : Bool) : Bool × BufferPoolManagerInstance :=
  if pid ∉ st.pagesExist ∨ st.poolSize ≤ (ptFind? st.pageTable pid).getD 0 ∨
      (st.pages ((ptFind? st.pageTable pid).getD 0)).pinCount = 0 then
    (false, st)
  else st.unpinApply ((ptFind? st.pageTable pid).getD 0) isDirty

/-- An event trace contains `e1` strictly before `e2`. -/
def precedes (tr : List BpmEvent) (e1 e2 : BpmEvent) : Prop :=
  ∃ i j, i < j ∧ tr.get? i = some e1 ∧ tr.get? j = some e2

/-! ## B+ tree (`b_plus_tree.cpp`, `b_plus_tree_leaf_page.cpp`,
`b_plus_tree_internal_page.cpp`)

Keys and values are `Int` (`GenericKey` compares as an integer; `RID` is
opaque). Pages live in an arena `page_id → page`, standing for the pages
reachable through the buffer pool; pin/unpin bookkeeping is the buffer pool
model's concern and has no effect on page contents. A page's `size_` is the
length of its entry list. -/

/-- Modelled from the spec: `GenericComparator` (not under `src/`) is a
three-way comparator returning -1, 0 or 1. -/
def cmp (a b : Int) : Int :=
  if a < b then -1 else if b < a then 1 else 0

/-- A leaf page: header fields and the `(key, RID)` entry array. -/
structure LeafPage where
  pageId : Int
  parentPageId : Int
  nextPageId : Int
  maxSize : Nat
  entries : List (Int × Int)
deriving DecidableEq, Repr

/-- An internal page: header fields and the `(key, child page id)` entry
array; slot 0's key is the dummy first key. -/
structure InternalPage where
  pageId : Int
  parentPageId : Int
  maxSize : Nat
  entries : List (Int × Int)
deriving DecidableEq, Repr

/-- A B+ tree page, discriminated exactly as by the `page_type` header. -/
inductive BPage where
  | leaf (p : LeafPage)
  | internal (p : InternalPage)
deriving DecidableEq, Repr

/-- `GetParentPageId` across both page kinds. -/
def BPage.parentPageId : BPage → Int
  | .leaf p => p.parentPageId
  | .internal p => p.parentPageId

/-- `SetParentPageId` across both page kinds. -/
def BPage.setParent : BPage → Int → BPage
  | .leaf p, x => .leaf { p with parentPageId := x }
  | .internal p, x => .internal { p with parentPageId := x }

/-- Arena lookup (`buffer_pool_manager_->FetchPage` for page contents). -/
def pageFind? (l : List (Int × BPage)) (key : Int) : Option BPage :=
  match l with
  | [] => none
  | p :: rest => if p.1 = key then some p.2 else pageFind? rest key

/-- Arena update / addition of a page. -/
def pageSet (l : List (Int × BPage)) (key : Int) (pg : BPage) : List (Int × BPage) :=
  match l with
  | [] => [(key, pg)]
  | p :: rest => if p.1 = key then (key, pg) :: rest else p :: pageSet rest key pg

/-- `BPlusTreeLeafPage::KeyAt`; reads beyond `size_` return the stale/zero
key an uninitialised slot would hold, fixed here to 0. -/
def LeafPage.KeyAt (p : LeafPage) (i : Nat) : Int :=
  (p.entries.getD i (0, 0)).1

/-- `BPlusTreeLeafPage::InsertAt`: shift the tail right and write the pair. -/
def LeafPage.InsertAt (p : LeafPage) (i : Nat) (k v : Int) : LeafPage :=
  { p with entries := p.entries.take i ++ (k, v) :: p.entries.drop i }

/-- The binary-search loop of `BPlusTreeLeafPage::KeyIndex` on `[left, right)`.
Each iteration shrinks `right - left`, so any fuel of at least `right - left`
matches the C++ loop; fuel keeps the recursion structural. -/
def LeafPage.KeyIndexLoop (p : LeafPage) (key : Int) : Nat → Nat → Nat → Nat
  | 0, left, _ => left
  | fuel + 1, left, right =>
    if left < right then
      let mid := (right - left) / 2 + left
      let r := cmp key (p.KeyAt mid)
      if r = 0 then mid
      else if r = 1 then p.KeyIndexLoop key fuel (mid + 1) right
      else p.KeyIndexLoop key fuel left mid
    else left

/-- `BPlusTreeLeafPage::KeyIndex`: lower-bound binary search over
`[0, size)`. -/
def LeafPage.KeyIndex (p : LeafPage) (key : Int) : Nat :=
  p.KeyIndexLoop key (p.entries.length + 1) 0 p.entries.length

/-- `BPlusTreeLeafPage::Insert`: returns the new `GetSize()` (unchanged on a
duplicate key) together with the updated page. -/
def LeafPage.Insert (p : LeafPage) (k v : Int) : Nat × LeafPage :=
  if p.entries.length = 0 then (1, p.InsertAt 0 k v)
  else if cmp (p.KeyAt (p.KeyIndex k)) k = 0 then (p.entries.length, p)
  else (p.entries.length + 1, p.InsertAt (p.KeyIndex k) k v)

/-- Modelled from the spec: `BPlusTreeLeafPage::Lookup` (declared in the
leaf header, which is not under `src/`) binary-searches the leaf for an
exact key match and returns the corresponding `RID`. -/
def LeafPage.Lookup (p : LeafPage) (key : Int) : Option Int :=
  if p.KeyIndex key < p.entries.length ∧ cmp (p.KeyAt (p.KeyIndex key)) key = 0 then
    some (p.entries.getD (p.KeyIndex key) (0, 0)).2
  else none

/-- `BPlusTreeInternalPage::KeyAt`, with out-of-range reads fixed to 0. -/
def InternalPage.KeyAt (p : InternalPage) (i : Nat) : Int :=
  (p.entries.getD i (0, -1)).1

/-- `BPlusTreeInternalPage::ValueAt`; an out-of-range read (which the
binary search can produce, see below) yields the junk page id -1. -/
def InternalPage.ValueAt (p : InternalPage) (i : Nat) : Int :=
  (p.entries.getD i (0, -1)).2

/-- The binary-search loop of `BPlusTreeInternalPage::IndexLookup` on
`[left, right)` with exit condition `left < right - 1`. Fuel as in
`KeyIndexLoop`. -/
def InternalPage.IndexLookupLoop (p : InternalPage) (key : Int) : Nat → Nat → Nat → Nat
  | 0, left, _ => left
  | fuel + 1, left, right =>
    if left + 1 < right then
      let mid := (right - left) / 2 + left
      let r := cmp key (p.KeyAt mid)
      if r = 0 then mid
      else if r = 1 then p.IndexLookupLoop key fuel (mid + 1) right
      else p.IndexLookupLoop key fuel left mid
    else left

/-- `BPlusTreeInternalPage::IndexLookup`. -/
def InternalPage.IndexLookup (p : InternalPage) (key : Int) : Nat :=
  let size := p.entries.length
  if size = 1 ∨ cmp key (p.KeyAt 1) = -1 then 0
  else p.IndexLookupLoop key (size + 1) 1 size

/-- `BPlusTreeInternalPage::Lookup`: the child pointer at the looked-up
index. -/
def InternalPage.Lookup (p : InternalPage) (key : Int) : Int :=
  p.ValueAt (p.IndexLookup key)

/-- `BPlusTreeInternalPage::InsertAt`. -/
def InternalPage.InsertAt (p : InternalPage) (i : Nat) (k v : Int) : InternalPage :=
  { p with entries := p.entries.take i ++ (k, v) :: p.entries.drop i }

/-- `BPlusTreeInternalPage::ValueIndex`: index of the entry holding the
given child page id; the C++ returns `INVALID_PAGE_ID` when absent. -/
def InternalPage.ValueIndex (p : InternalPage) (v : Int) : Option Nat :=
  p.entries.findIdx? (fun e => e.2 == v)

/-- `BPlusTreeInternalPage::InsertNodeAfter`: insert right after the entry
whose value is `oldVal` and return the new `GetSize()`. (On a missing
`oldVal` the C++ index is `INVALID_PAGE_ID`, so insertion lands at slot 0.) -/
def InternalPage.InsertNodeAfter (p : InternalPage) (oldVal k newVal : Int) :
    Nat × InternalPage :=
  let index := match p.ValueIndex oldVal with
    | some i => i + 1
    | none => 0
  let p1 := p.InsertAt index k newVal
  (p1.entries.length, p1)

/-- `BPlusTreeInternalPage::PopulateNewRoot` on a freshly initialised page:
size 2, slot 0 holds the old root (dummy key 0), slot 1 the separator and
the new sibling. -/
def InternalPage.PopulateNewRoot (p : InternalPage) (oldVal newKey newVal : Int) :
    InternalPage :=
  { p with entries := [(0, oldVal), (newKey, newVal)] }

/-- `BPlusTree` state: `root_page_id_`, the allocator counter of the backing
buffer pool (`NewPage` hands out fresh page ids), the two max sizes and the
page arena. -/
structure BPlusTree where
  rootPageId : Int
  nextPageId : Int
  leafMaxSize : Nat
  internalMaxSize : Nat
  pages : List (Int × BPage)
deriving DecidableEq, Repr

/-- `BPlusTree::IsEmpty`: `root_page_id_ == INVALID_PAGE_ID` (-1). -/
def BPlusTree.IsEmpty (t : BPlusTree) : Bool :=
  t.rootPageId == -1

/-- Fetch a page by id. -/
def BPlusTree.getPage (t : BPlusTree) (pid : Int) : Option BPage :=
  pageFind? t.pages pid

/-- Write a page by id. -/
def BPlusTree.setPage (t : BPlusTree) (pid : Int) (pg : BPage) : BPlusTree :=
  { t with pages := pageSet t.pages pid pg }

/-- The descent loop of `BPlusTree::FindLeafPage`: fetch the page, stop at a
leaf, otherwise continue into `internal->Lookup(key)`. `none` models a
missing page (the source asserts) or exhausted fuel. -/
def BPlusTree.FindLeafLoop (t : BPlusTree) (key : Int) : Nat → Int → Option (Int × LeafPage)
  | 0, _ => none
  | fuel + 1, pid =>
    match t.getPage pid with
    | none => none
    | some (.leaf l) => some (pid, l)
    | some (.internal ip) => t.FindLeafLoop key fuel (ip.Lookup key)

/-- `BPlusTree::FindLeafPage` (its `leftMost` and `mode` parameters are
unused in the source). -/
def BPlusTree.FindLeafPage (t : BPlusTree) (fuel : Nat) (key : Int) :
    Option (Int × LeafPage) :=
  if t.IsEmpty then none else t.FindLeafLoop key fuel t.rootPageId

/-- `BPlusTree::GetValue`: descend to the leaf and look the key up there. -/
def BPlusTree.GetValue (t : BPlusTree) (fuel : Nat) (key : Int) : Option Int :=
  if t.IsEmpty then none
  else
    match t.FindLeafPage fuel key with
    | none => none
    | some (_, l) => l.Lookup key

/-- `BPlusTree::StartNewTree`: allocate a leaf root, record it as root and
insert the pair. (`UpdateRootPageId` maintains the header-page catalog,
which is outside the arena.) -/
def BPlusTree.StartNewTree (t : BPlusTree) (k v : Int) : BPlusTree :=
  let pid := t.nextPageId
  let leaf : LeafPage :=
    { pageId := pid, parentPageId := -1, nextPageId := -1,
      maxSize := t.leafMaxSize, entries := [] }
  let leaf1 := (leaf.Insert k v).2
  { t with
    rootPageId := pid, nextPageId := pid + 1,
    pages := pageSet t.pages pid (.leaf leaf1) }

/-- The `SetParentToMe` calls issued by `CopyLastFrom` while an internal
page's entries move: each moved child page is re-parented. -/
def BPlusTree.adoptChildren (t : BPlusTree) (newParent : Int) :
    List (Int × Int) → BPlusTree
  | [] => t
  | e :: rest =>
    let t1 := match t.getPage e.2 with
      | some pg => t.setPage e.2 (pg.setParent newParent)
      | none => t
    t1.adoptChildren newParent rest

/-- `BPlusTree::InsertIntoParent`, with fuel for its recursion. A new-root
split populates a fresh internal root; otherwise the separator is inserted
after the old child in the parent, splitting it in turn when it reaches
`max_size`. -/
def BPlusTree.InsertIntoParent : Nat → BPlusTree → Int → Int → Int → BPlusTree
  | 0, t, _, _, _ => t
  | fuel + 1, t, oldPid, key, newPid =>
    match t.getPage oldPid with
    | none => t
    | some oldPg =>
      if oldPg.parentPageId = -1 then
        -- the root has been split: construct a new root
        let rootPid := t.nextPageId
        let newRoot : InternalPage :=
          { pageId := rootPid, parentPageId := -1,
            maxSize := t.internalMaxSize, entries := [] }
        let t1 := { t with nextPageId := rootPid + 1 }
        let t2 := t1.setPage oldPid (oldPg.setParent rootPid)
        let t3 := match t2.getPage newPid with
          | some newPg => t2.setPage newPid (newPg.setParent rootPid)
          | none => t2
        let t4 := t3.setPage rootPid (.internal (newRoot.PopulateNewRoot oldPid key newPid))
        { t4 with rootPageId := rootPid }
      else
        let parentPid := oldPg.parentPageId
        match t.getPage parentPid with
        | some (.internal parent) =>
          let r := parent.InsertNodeAfter oldPid key newPid
          if r.1 = parent.maxSize then
            -- SplitPage<InternalPage> and parent->MoveHalfTo(new_parent)
            let npid := t.nextPageId
            let parent1 := r.2
            let moveSize := parent1.entries.length / 2
            let keepLen := parent1.entries.length - moveSize
            let moved := parent1.entries.drop keepLen
            let newParent : InternalPage :=
              { pageId := npid, parentPageId := parent1.parentPageId,
                maxSize := t.internalMaxSize, entries := moved }
            let t1 := { t with nextPageId := npid + 1 }
            let t2 := t1.setPage parentPid (.internal { parent1 with entries := parent1.entries.take keepLen })
            let t3 := t2.setPage npid (.internal newParent)
            let t4 := t3.adoptChildren npid moved
            t4.InsertIntoParent fuel parentPid (newParent.KeyAt 0) npid
          else t.setPage parentPid (.internal r.2)
        | _ => t

/-- The leaf-split branch of `InsertIntoLeaf`: `SplitPage<LeafPage>` (a
fresh page id), `leaf->MoveHalfTo(new_leaf)` (the upper half of the
entries), relinking `new.next = old.next; old.next = new`, and propagating
the new leaf's first key to the parent. -/
def BPlusTree.splitLeafStep (t : BPlusTree) (fuel : Nat) (pid : Int) (leaf1 : LeafPage) :
    BPlusTree :=
  let npid := t.nextPageId
  let moveSize := leaf1.entries.length / 2
  let keepLen := leaf1.entries.length - moveSize
  let newLeaf : LeafPage :=
    { pageId := npid, parentPageId := leaf1.parentPageId,
      nextPageId := leaf1.nextPageId, maxSize := t.leafMaxSize,
      entries := leaf1.entries.drop keepLen }
  let leaf2 := { leaf1 with entries := leaf1.entries.take keepLen, nextPageId := npid }
  let t1 := { t with nextPageId := npid + 1 }
  let t2 := (t1.setPage pid (.leaf leaf2)).setPage npid (.leaf newLeaf)
  t2.InsertIntoParent fuel pid (newLeaf.KeyAt 0) npid

/-- `BPlusTree::InsertIntoLeaf`: descend to the leaf, insert (a duplicate
leaves the size, the page and the tree unchanged and returns false), and
split the leaf when it reaches `max_size`. -/
def BPlusTree.InsertIntoLeaf (t : BPlusTree) (fuel : Nat) (k v : Int) :
    Bool × BPlusTree :=
  match t.FindLeafPage fuel k with
  | none => (false, t)
  | some (pid, leaf) =>
    if (leaf.Insert k v).1 = leaf.entries.length then (false, t)
    else if (leaf.Insert k v).1 = leaf.maxSize then
      (true, t.splitLeafStep fuel pid (leaf.Insert k v).2)
    else (true, t.setPage pid (.leaf (leaf.Insert k v).2))

/-- `BPlusTree::Insert`. -/
def BPlusTree.Insert (t : BPlusTree) (fuel : Nat) (k v : Int) : Bool × BPlusTree :=
  if t.IsEmpty then (true, t.StartNewTree k v)
  else t.InsertIntoLeaf fuel k v

/-- Modelled from the spec: the index iterator's state is a position in a
leaf. Its class is not under `src/`; the only fact the source fixes is that
`Begin`, `Begin(key)` and `End` all return the same default-constructed
value, represented by `IndexIterator.defaultIter`. -/
structure IndexIterator where
  pageId : Int
  index : Nat
deriving DecidableEq, Repr

/-- The default-constructed iterator `INDEXITERATOR_TYPE()` (its concrete
field values are immaterial below: only that all three constructors return
this same value matters). -/
def IndexIterator.defaultIter : IndexIterator :=
  { pageId := -1, index := 0 }

/-- `BPlusTree::Begin()`: `return INDEXITERATOR_TYPE();`. -/
def BPlusTree.Begin (_t : BPlusTree) : IndexIterator :=
  IndexIterator.defaultIter

/-- `BPlusTree::Begin(key)`: `return INDEXITERATOR_TYPE();`. -/
def BPlusTree.BeginKey (_t : BPlusTree) (_key : Int) : IndexIterator :=
  IndexIterator.defaultIter

/-- `BPlusTree::End()`: `return INDEXITERATOR_TYPE();`. -/
def BPlusTree.End (_t : BPlusTree) : IndexIterator :=
  IndexIterator.defaultIter

/-- The empty tree with the spec-scenario parameters
(`leaf_max_size = 3`, `internal_max_size = 3`). -/
def bptEmpty : BPlusTree :=
  { rootPageId := -1, nextPageId := 1, leafMaxSize := 3, internalMaxSize := 3,
    pages := [] }

/-- The tree built by inserting keys 1..7 (values `10 * key`) in order into
the empty tree, as in the spec's split-chain scenario. -/
def bptSeven : BPlusTree :=
  ((((((((bptEmpty.Insert 20 1 10).2.Insert 20 2 20).2.Insert 20 3 30).2.Insert 20 4
    40).2.Insert 20 5 50).2.Insert 20 6 60).2.Insert 20 7 70).2)

/-- The internal page exhibiting the `IndexLookup` off-by-one: size 4, keys
10, 20, 30 at slots 1..3 (strictly increasing), children 100..103. -/
def c4Page : InternalPage :=
  { pageId := 9, parentPageId := -1, maxSize := 5,
    entries := [(0, 100), (10, 101), (20, 102), (30, 103)] }

/-! ## General list helpers -/

theorem listGetD_of_length_le {α : Type} (l : List α) (d : α) :
    ∀ i, l.length ≤ i → l.getD i d = d := by
  induction l with
  | nil => intro i _; cases i <;> rfl
  | cons a t ih =>
    intro i h
    cases i with
    | zero => simp at h
    | succ j => exact ih j (by simpa using h)

theorem listGetD_set_self {α : Type} (l : List α) (a d : α) :
    ∀ i, i < l.length → (l.set i a).getD i d = a := by
  induction l with
  | nil => intro i h; simp at h
  | cons b t ih =>
    intro i h
    cases i with
    | zero => rfl
    | succ j => exact ih j (by simpa using h)

theorem listGetD_set_ne {α : Type} (l : List α) (a d : α) :
    ∀ i j, i ≠ j → (l.set i a).getD j d = l.getD j d := by
  induction l with
  | nil => intro i j _; cases i <;> rfl
  | cons b t ih =>
    intro i j hne
    cases i with
    | zero =>
      cases j with
      | zero => exact absurd rfl hne
      | succ m => rfl
    | succ n =>
      cases j with
      | zero => rfl
      | succ m => exact ih n m (by omega)

theorem listSet_of_length_le {α : Type} (l : List α) (a : α) :
    ∀ i, l.length ≤ i → l.set i a = l := by
  induction l with
  | nil => intro i _; cases i <;> rfl
  | cons b t ih =>
    intro i h
    cases i with
    | zero => simp at h
    | succ j =>
      show b :: t.set j a = b :: t
      rw [ih j (by simpa using h)]

theorem listMap_set_of_eq {α β : Type} (f : α → β) (l : List α) (a d : α) :
    ∀ i, f a = f (l.getD i d) → (l.set i a).map f = l.map f := by
  induction l with
  | nil => intro i _; cases i <;> rfl
  | cons b t ih =>
    intro i h
    cases i with
    | zero => simp only [List.set, List.map]; rw [h]; rfl
    | succ j =>
      simp only [List.set, List.map]
      rw [ih j h]

/-! ## Theorems: extendible hash table -/

theorem listFindFirst_overwrite {K V : Type} [DecidableEq K]
    (l : List (K × V)) (key : K) (v : V) (h : (listFindFirst l key).isSome) :
    listFindFirst (listOverwrite l key v) key = some v := by
  induction l with
  | nil => simp [listFindFirst] at h
  | cons p rest ih =>
    by_cases hp : p.1 = key
    · simp [listFindFirst, listOverwrite, hp]
    · simp only [listFindFirst, listOverwrite, if_neg hp] at h ⊢
      exact ih h

/-- C8: when the key is already present (even in a full bucket), `Insert`
overwrites the stored value in place: the duplicate check in
`Bucket::Insert` precedes the `IsFull` check, so `InsertImp` succeeds on its
first try, leaving `global_depth`, `num_buckets` and the directory
unchanged, and a subsequent `Find` returns the new value. -/
theorem c8_insert_existing_key_overwrites_in_place {K V : Type} [DecidableEq K]
    (hashFn : K → Nat) (fuel : Nat) (st : ExtendibleHashTable K V) (k : K) (v w : V)
    (h : st.Find hashFn k = some w) :
    ∃ st', ExtendibleHashTable.InsertImp hashFn (fuel + 1) st k v = some st' ∧
      st'.globalDepth = st.globalDepth ∧
      st'.numBuckets = st.numBuckets ∧
      st'.dir = st.dir ∧
      st'.Find hashFn k = some v := by
  have hb : listFindFirst (st.bucketAt (st.dir.getD (st.IndexOf hashFn k) 0)).list k
      = some w := h
  have hsome : (listFindFirst (st.bucketAt (st.dir.getD (st.IndexOf hashFn k) 0)).list
      k).isSome := by rw [hb]; rfl
  have hlt : st.dir.getD (st.IndexOf hashFn k) 0 < st.buckets.length := by
    by_contra hge
    push_neg at hge
    have : st.bucketAt (st.dir.getD (st.IndexOf hashFn k) 0)
        = { size := 0, depth := 0, list := [] } :=
      listGetD_of_length_le _ _ _ hge
    rw [this] at hb
    simp [listFindFirst] at hb
  have hins : (st.bucketAt (st.dir.getD (st.IndexOf hashFn k) 0)).Insert k v =
      (true, { st.bucketAt (st.dir.getD (st.IndexOf hashFn k) 0) with
        list := listOverwrite (st.bucketAt (st.dir.getD (st.IndexOf hashFn k) 0)).list k v }) := by
    unfold Bucket.Insert
    rw [if_pos hsome]
  refine ⟨{ st with
      buckets := st.buckets.set (st.dir.getD (st.IndexOf hashFn k) 0)
        { st.bucketAt (st.dir.getD (st.IndexOf hashFn k) 0) with
          list := listOverwrite (st.bucketAt (st.dir.getD (st.IndexOf hashFn k) 0)).list k v } },
    ?_, rfl, rfl, rfl, ?_⟩
  · unfold ExtendibleHashTable.InsertImp
    simp only [hins]
    rw [if_pos trivial]
  · have hlt' : st.dir.getD (hashFn k % 2 ^ st.globalDepth) 0 < st.buckets.length := hlt
    unfold ExtendibleHashTable.Find Bucket.Find ExtendibleHashTable.bucketAt
    simp only [ExtendibleHashTable.IndexOf]
    rw [listGetD_set_self _ _ _ _ hlt']
    exact listFindFirst_overwrite _ _ _ hsome

/-- C8 witness: in `c8Table` the bucket is full (2 entries, capacity 2) and
key 1 is present with value 10; inserting `(1, 99)` overwrites in place. -/
theorem c8_insert_existing_key_overwrites_in_place_witness :
    c8Table.Find natIdHash 1 = some 10 ∧
    (∃ st', ExtendibleHashTable.InsertImp natIdHash (0 + 1) c8Table 1 99 = some st' ∧
      st'.globalDepth = c8Table.globalDepth ∧
      st'.numBuckets = c8Table.numBuckets ∧
      st'.dir = c8Table.dir ∧
      st'.Find natIdHash 1 = some 99) :=
  ⟨by decide,
    c8_insert_existing_key_overwrites_in_place natIdHash 0 c8Table 1 99 10 (by decide)⟩

/-- C7 counterexample: running the spec's scenario (`bucket_size = 2`;
insert keys 0, 4, 8) leaves `global_depth = 3` and `num_buckets = 4`, not
the claimed `global_depth = 2` and `num_buckets = 2`. -/
theorem c7_split_scenario_counterexample :
    c7Run.map (fun st => (st.globalDepth, st.numBuckets)) = some (3, 4) ∧
    c7Run.map (fun st => (st.globalDepth, st.numBuckets)) ≠ some (2, 2) := by
  constructor
  · decide
  · decide

/-- C7 amended: the scenario's three splits end with `GetGlobalDepth() = 3`,
`GetNumBuckets() = 4`, and `Find` succeeding on 0, 4 and 8 with the three
inserted values. -/
theorem c7_split_scenario_amended :
    c7Run.map (fun st =>
      (st.globalDepth, st.numBuckets,
        st.Find natIdHash 0, st.Find natIdHash 4, st.Find natIdHash 8)) =
      some (3, 4, some 10, some 20, some 30) := by
  decide

/-! ### C10: monotone growth of `global_depth` and `num_buckets` -/

theorem splitStep_globalDepth_le {K V : Type} [DecidableEq K] (hashFn : K → Nat)
    (st : ExtendibleHashTable K V) (key : K) :
    st.globalDepth ≤ (st.splitStep hashFn key).globalDepth := by
  unfold ExtendibleHashTable.splitStep
  dsimp only
  split
  · exact Nat.le_succ _
  · exact Nat.le_refl _

theorem splitStep_numBuckets_eq {K V : Type} [DecidableEq K] (hashFn : K → Nat)
    (st : ExtendibleHashTable K V) (key : K) :
    (st.splitStep hashFn key).numBuckets = st.numBuckets + 1 := by
  unfold ExtendibleHashTable.splitStep
  dsimp only
  split
  · rfl
  · rfl

theorem insertImp_monotone {K V : Type} [DecidableEq K] (hashFn : K → Nat) :
    ∀ (fuel : Nat) (st : ExtendibleHashTable K V) (k : K) (v : V)
      (st' : ExtendibleHashTable K V),
      ExtendibleHashTable.InsertImp hashFn fuel st k v = some st' →
      st.globalDepth ≤ st'.globalDepth ∧ st.numBuckets ≤ st'.numBuckets := by
  intro fuel
  induction fuel with
  | zero =>
    intro st k v st' h
    exact absurd h (by simp [ExtendibleHashTable.InsertImp])
  | succ n ih =>
    intro st k v st' h
    unfold ExtendibleHashTable.InsertImp at h
    split at h
    · cases h
      exact ⟨Nat.le_refl _, Nat.le_refl _⟩
    · have h2 := ih _ k v st' h
      refine ⟨Nat.le_trans (splitStep_globalDepth_le hashFn st k) h2.1, ?_⟩
      have h3 := splitStep_numBuckets_eq hashFn st k
      omega

theorem runEhtOps_monotone {K V : Type} [DecidableEq K] (hashFn : K → Nat)
    (fuel : Nat) :
    ∀ (ops : List (EhtOp K V)) (st st' : ExtendibleHashTable K V),
      runEhtOps hashFn fuel st ops = some st' →
      st.globalDepth ≤ st'.globalDepth ∧ st.numBuckets ≤ st'.numBuckets := by
  intro ops
  induction ops with
  | nil =>
    intro st st' h
    cases h
    exact ⟨Nat.le_refl _, Nat.le_refl _⟩
  | cons op rest ih =>
    intro st st' h
    unfold runEhtOps at h
    cases hop : applyEhtOp hashFn fuel st op with
    | none => rw [hop] at h; cases h
    | some st1 =>
      rw [hop] at h
      have h2 := ih st1 st' h
      have h1 : st.globalDepth ≤ st1.globalDepth ∧ st.numBuckets ≤ st1.numBuckets := by
        cases op with
        | insert k v => exact insertImp_monotone hashFn fuel st k v st1 hop
        | remove k =>
          cases hop
          exact ⟨Nat.le_refl _, Nat.le_refl _⟩
        | find k =>
          cases hop
          exact ⟨Nat.le_refl _, Nat.le_refl _⟩
      exact ⟨Nat.le_trans h1.1 h2.1, Nat.le_trans h1.2 h2.2⟩

/-- C10: over any operation sequence, `global_depth` and `num_buckets`
never decrease; and `Remove` changes no structure at all: it preserves
`global_depth`, `num_buckets`, the directory, every bucket's capacity and
local depth and every other bucket's contents, and in the target bucket it
only erases the first entry matching the key. -/
theorem c10_depth_and_buckets_monotone {K V : Type} [DecidableEq K] (hashFn : K → Nat) :
    (∀ (fuel : Nat) (ops : List (EhtOp K V)) (st st' : ExtendibleHashTable K V),
      runEhtOps hashFn fuel st ops = some st' →
      st.globalDepth ≤ st'.globalDepth ∧ st.numBuckets ≤ st'.numBuckets) ∧
    (∀ (st : ExtendibleHashTable K V) (k : K),
      ((st.Remove hashFn k).2.globalDepth = st.globalDepth ∧
       (st.Remove hashFn k).2.numBuckets = st.numBuckets ∧
       (st.Remove hashFn k).2.dir = st.dir) ∧
      (st.Remove hashFn k).2.buckets.map (fun b => (b.size, b.depth)) =
        st.buckets.map (fun b => (b.size, b.depth)) ∧
      (∀ j, j ≠ st.dir.getD (st.IndexOf hashFn k) 0 →
        (st.Remove hashFn k).2.bucketAt j = st.bucketAt j) ∧
      ((st.Remove hashFn k).2.bucketAt (st.dir.getD (st.IndexOf hashFn k) 0)).list =
        (listRemoveFirst (st.bucketAt (st.dir.getD (st.IndexOf hashFn k) 0)).list k).2) := by
  refine ⟨fun fuel ops st st' h => runEhtOps_monotone hashFn fuel ops st st' h,
    fun st k => ⟨⟨rfl, rfl, rfl⟩, ?_, ?_, ?_⟩⟩
  · apply listMap_set_of_eq
    rfl
  · intro j hj
    show (st.buckets.set (st.dir.getD (st.IndexOf hashFn k) 0) _).getD j _ = _
    exact listGetD_set_ne _ _ _ _ _ (fun he => hj he.symm)
  · by_cases hlt : st.dir.getD (st.IndexOf hashFn k) 0 < st.buckets.length
    · show ((st.buckets.set (st.dir.getD (st.IndexOf hashFn k) 0) _).getD _ _).list = _
      rw [listGetD_set_self _ _ _ _ hlt]
      rfl
    · push_neg at hlt
      show ((st.buckets.set (st.dir.getD (st.IndexOf hashFn k) 0)
        ((st.bucketAt (st.dir.getD (st.IndexOf hashFn k) 0)).Remove k).2).getD _ _).list = _
      rw [listSet_of_length_le _ _ _ hlt]
      rw [listGetD_of_length_le _ _ _ hlt]
      unfold ExtendibleHashTable.bucketAt
      rw [listGetD_of_length_le _ _ _ hlt]
      rfl

/-- C10 witness: the sequence insert (0,10); remove 0; find 3 run on a fresh
table lands back on the fresh table, and the monotonicity theorem applies. -/
theorem c10_depth_and_buckets_monotone_witness :
    runEhtOps natIdHash 5 (ExtendibleHashTable.new 2)
      [EhtOp.insert 0 10, EhtOp.remove 0, EhtOp.find 3] =
      some (ExtendibleHashTable.new 2) ∧
    ((ExtendibleHashTable.new 2 : ExtendibleHashTable Nat Nat).globalDepth ≤
        (ExtendibleHashTable.new 2 : ExtendibleHashTable Nat Nat).globalDepth ∧
      (ExtendibleHashTable.new 2 : ExtendibleHashTable Nat Nat).numBuckets ≤
        (ExtendibleHashTable.new 2 : ExtendibleHashTable Nat Nat).numBuckets) :=
  ⟨by decide,
    (c10_depth_and_buckets_monotone natIdHash).1 5
      [EhtOp.insert 0 10, EhtOp.remove 0, EhtOp.find 3]
      (ExtendibleHashTable.new 2) (ExtendibleHashTable.new 2) (by decide)⟩

/-! ## Theorems: B+ tree pages -/

/-- C4: the binary search of `IndexLookup` is off by one. On `c4Page`
(size 4, keys 10 < 20 < 30 at slots 1..3) and search key 25, the documented
contract ("the last index with `array_[index].key <= key`") demands index 2
(key 20 ≤ 25 < 30), but the code returns 3 — the key at the returned slot
exceeds the search key. -/
theorem c4_indexlookup_off_by_one :
    c4Page.IndexLookup 25 = 3 ∧
    c4Page.KeyAt 1 < c4Page.KeyAt 2 ∧ c4Page.KeyAt 2 < c4Page.KeyAt 3 ∧
    c4Page.entries.length = 4 ∧
    c4Page.KeyAt 2 ≤ 25 ∧ ¬(c4Page.KeyAt 3 ≤ 25) := by
  decide

/-- C9: `Begin()`, `Begin(key)` and `End()` are stubs returning the same
default-constructed iterator. On the seven-key tree (all of whose keys
`GetValue` retrieves), `Begin()` equals `End()` and equals `Begin()` of the
empty tree, so the iterator cannot yield the leftmost leaf's first entry,
and stepping from `Begin()` to `End()` visits no entry at all. -/
theorem c9_begin_end_are_stubs :
    bptSeven.Begin = bptSeven.End ∧
    bptSeven.BeginKey 1 = bptSeven.End ∧
    bptSeven.Begin = bptEmpty.Begin ∧
    bptSeven.GetValue 20 1 = some 10 ∧
    bptSeven.GetValue 20 7 = some 70 ∧
    bptEmpty.GetValue 20 1 = none := by
  decide

/-- A one-frame pool whose only frame holds dirty page 0 (data 7), unpinned
and evictable, with an empty free list: the next `NewPgImp` must evict and
write back. -/
def c2State : BufferPoolManagerInstance :=
  { poolSize := 1,
    pages := fun _ => { pageId := 0, pinCount := 0, isDirty := true, data := 7 },
    pageTable := [(0, 0)],
    pagesExist := [0],
    freeList := [],
    replacer := ((LRUKReplacer.new 1 2).RecordAccess 0).SetEvictable 0 true,
    nextPageId := 1,
    disk := fun _ => 0 }

/-- A one-frame pool whose only frame holds clean page 0 pinned once. -/
def c3State : BufferPoolManagerInstance :=
  { poolSize := 1,
    pages := fun _ => { pageId := 0, pinCount := 1, isDirty := false, data := 7 },
    pageTable := [(0, 0)],
    pagesExist := [0],
    freeList := [],
    replacer := (LRUKReplacer.new 1 2).RecordAccess 0,
    nextPageId := 1,
    disk := fun _ => 0 }

/-! ## Theorems: LRU-K replacer -/

theorem listHeadD_mem {α : Type} (l : List α) (d : α) (h : l ≠ []) : l.headD d ∈ l := by
  cases l with
  | nil => exact absurd rfl h
  | cons a t => exact List.mem_cons_self a t

theorem listGetD_mem {α : Type} (l : List α) (d : α) :
    ∀ i, i < l.length → l.getD i d ∈ l := by
  induction l with
  | nil => intro i h; simp at h
  | cons a t ih =>
    intro i h
    cases i with
    | zero => exact List.mem_cons_self a t
    | succ j => exact List.mem_cons_of_mem a (ih j (by simpa using h))

theorem candidates_spec (st : LRUKReplacer) (g : Nat) (h : g ∈ st.candidates) :
    ∃ q, q ∈ st.evictable ∧ q.1 = g ∧ q.2 = true ∧ st.times g ≠ [] := by
  unfold LRUKReplacer.candidates candidatesIn at h
  rw [List.mem_map] at h
  obtain ⟨q, hq, hg⟩ := h
  rw [List.mem_filter] at hq
  have hb := hq.2
  rw [Bool.and_eq_true] at hb
  refine ⟨q, hq.1, hg, hb.1, ?_⟩
  have := hb.2
  rw [Bool.not_eq_true'] at this
  rw [← hg]
  intro hnil
  rw [hnil] at this
  simp at this

theorem mem_candidates_of (st : LRUKReplacer) (p : Nat × Bool)
    (hp : p ∈ st.evictable) (hflag : p.2 = true) (hne : st.times p.1 ≠ []) :
    p.1 ∈ st.candidates := by
  unfold LRUKReplacer.candidates candidatesIn
  rw [List.mem_map]
  refine ⟨p, ?_, rfl⟩
  rw [List.mem_filter]
  refine ⟨hp, ?_⟩
  rw [Bool.and_eq_true, Bool.not_eq_true']
  refine ⟨hflag, ?_⟩
  cases hts : st.times p.1 with
  | nil => exact absurd hts hne
  | cons a t => rfl

theorem candidatesIn_cons (st : LRUKReplacer) (p : Nat × Bool) (l : List (Nat × Bool)) :
    candidatesIn st (p :: l) =
      (if p.2 && !(st.times p.1).isEmpty then [p.1] else []) ++ candidatesIn st l := by
  unfold candidatesIn
  by_cases hc : (p.2 && !(st.times p.1).isEmpty) = true
  · simp [List.filter_cons, hc]
  · simp [List.filter_cons, hc]

theorem kdistance_inf (st : LRUKReplacer) (f : Nat)
    (h : (st.times f).length < st.k) : st.kdistance f = ⊤ := by
  unfold LRUKReplacer.kdistance
  rw [if_pos h]

theorem kdistance_fin (st : LRUKReplacer) (f : Nat)
    (h : ¬(st.times f).length < st.k) :
    st.kdistance f = (((st.currentTimestamp : Int) - st.kthRecent f : Int) : WithTop Int) := by
  unfold LRUKReplacer.kdistance
  rw [if_neg h]

theorem evictStep_inv (st : LRUKReplacer) (hwf : st.WF) (cs : List Nat)
    (acc : Int × Int × Option Nat) (p : Nat × Bool)
    (hpmem : p ∈ st.evictable) (hflag : p.2 = true) (hpne : st.times p.1 ≠ [])
    (hfresh : p.1 ∉ cs)
    (hcs : ∀ g ∈ cs, g ∈ st.candidates)
    (hinv : ScanInv st cs acc) :
    ScanInv st (cs ++ [p.1]) (evictStep st acc p) := by
  obtain ⟨hk, hbounds, hsorted, hdisj, hnodup⟩ := hwf
  obtain ⟨t, last, fr⟩ := acc
  have hE : (st.times p.1).isEmpty = false := by
    cases hts : st.times p.1 with
    | nil => exact absurd hts hpne
    | cons a l => rfl
  have hfa_mem : st.firstAccess p.1 ∈ st.times p.1 := listHeadD_mem _ _ hpne
  have hpb := hbounds p hpmem
  have hpmem1 : p.1 ∈ cs ++ [p.1] := List.mem_append_right _ (List.mem_singleton.mpr rfl)
  unfold evictStep
  rw [if_pos hflag]
  rw [if_neg (by rw [hE]; exact Bool.false_ne_true)]
  by_cases hinf : (st.times p.1).length < st.k
  · rw [if_pos hinf]
    cases fr with
    | none =>
      have hinv' : t = (st.currentTimestamp : Int) + 1 ∧ cs = [] := hinv
      obtain ⟨ht, hcs0⟩ := hinv'
      subst hcs0
      have htne : t ≠ -1 := by rw [ht]; intro hc; omega
      rw [if_pos htne]
      refine ⟨hpmem1, hpne, Or.inl ⟨rfl, hinf, rfl⟩, ?_, ?_⟩
      · intro g hg
        rw [List.nil_append, List.mem_singleton] at hg
        subst hg; exact le_refl _
      · intro g hg hgne _
        rw [List.nil_append, List.mem_singleton] at hg
        exact absurd hg hgne
    | some f =>
      have hinv' : f ∈ cs ∧ st.times f ≠ [] ∧
          ((t = -1 ∧ (st.times f).length < st.k ∧ last = st.firstAccess f) ∨
            (t ≠ -1 ∧ ¬(st.times f).length < st.k ∧ t = st.kthRecent f)) ∧
          (∀ g ∈ cs, st.kdistance g ≤ st.kdistance f) ∧
          (∀ g ∈ cs, g ≠ f → st.kdistance g = st.kdistance f →
            st.firstAccess f < st.firstAccess g) := hinv
      obtain ⟨hfmem, hfne, hcase, hmax, htie⟩ := hinv'
      obtain ⟨qf, hqfmem, hqf1, hqfflag, _⟩ := candidates_spec st f (hcs f hfmem)
      have hpf_ne : p.1 ≠ f := fun he => hfresh (he ▸ hfmem)
      rcases hcase with ⟨ht1, hfinf, hlast⟩ | ⟨ht1, hffin, htk⟩
      · rw [if_neg (fun hcon => hcon ht1)]
        by_cases hcmp : last > (st.times p.1).headD 0
        · rw [if_pos hcmp]
          refine ⟨hpmem1, hpne, Or.inl ⟨rfl, hinf, rfl⟩, ?_, ?_⟩
          · intro g hg
            rw [List.mem_append] at hg
            rcases hg with hg | hg
            · refine le_trans (hmax g hg) ?_
              rw [kdistance_inf st p.1 hinf]
              exact le_top
            · rw [List.mem_singleton] at hg; subst hg; exact le_refl _
          · intro g hg hgne heq
            rw [List.mem_append] at hg
            rcases hg with hg | hg
            · have hps : st.firstAccess p.1 < st.firstAccess f := by
                rw [← hlast]; exact hcmp
              by_cases hgf : g = f
              · subst hgf; exact hps
              · have h1 : st.kdistance g = st.kdistance f := by
                  rw [heq, kdistance_inf st p.1 hinf, kdistance_inf st f hfinf]
                exact lt_trans hps (htie g hg hgf h1)
            · rw [List.mem_singleton] at hg; exact absurd hg hgne
        · rw [if_neg hcmp]
          refine ⟨List.mem_append_left _ hfmem, hfne, Or.inl ⟨ht1, hfinf, hlast⟩, ?_, ?_⟩
          · intro g hg
            rw [List.mem_append] at hg
            rcases hg with hg | hg
            · exact hmax g hg
            · rw [List.mem_singleton] at hg; subst hg
              rw [kdistance_inf st _ hinf, kdistance_inf st f hfinf]
          · intro g hg hgne heq
            rw [List.mem_append] at hg
            rcases hg with hg | hg
            · exact htie g hg hgne heq
            · rw [List.mem_singleton] at hg; subst hg
              push_neg at hcmp
              have hle : st.firstAccess f ≤ st.firstAccess p.1 := by
                rw [← hlast]; exact hcmp
              cases eq_or_lt_of_le hle with
              | inr hlt => exact hlt
              | inl heqf =>
                exfalso
                have hmem1 : st.firstAccess f ∈ st.times f := listHeadD_mem _ _ hfne
                have hnotin := hdisj p hpmem qf hqfmem
                  (by rw [hqf1]; exact hpf_ne) _ hfa_mem
                rw [hqf1] at hnotin
                rw [heqf] at hmem1
                exact hnotin hmem1
      · rw [if_pos ht1]
        refine ⟨hpmem1, hpne, Or.inl ⟨rfl, hinf, rfl⟩, ?_, ?_⟩
        · intro g hg
          rw [List.mem_append] at hg
          rcases hg with hg | hg
          · refine le_trans (hmax g hg) ?_
            rw [kdistance_inf st p.1 hinf]
            exact le_top
          · rw [List.mem_singleton] at hg; subst hg; exact le_refl _
        · intro g hg hgne heq
          rw [List.mem_append] at hg
          rcases hg with hg | hg
          · exfalso
            have h1 := hmax g hg
            rw [heq, kdistance_inf st p.1 hinf] at h1
            rw [kdistance_fin st f hffin] at h1
            rw [top_le_iff] at h1
            exact WithTop.coe_ne_top h1
          · rw [List.mem_singleton] at hg; exact absurd hg hgne
  · rw [if_neg hinf]
    have hlen0 : 0 < (st.times p.1).length := by
      cases hts : st.times p.1 with
      | nil => exact absurd hts hpne
      | cons a l => simp
    have hkth_mem : st.kthRecent p.1 ∈ st.times p.1 := by
      unfold LRUKReplacer.kthRecent
      exact listGetD_mem _ _ _ (by omega)
    have hkb := hpb _ hkth_mem
    cases fr with
    | none =>
      have hinv' : t = (st.currentTimestamp : Int) + 1 ∧ cs = [] := hinv
      obtain ⟨ht, hcs0⟩ := hinv'
      subst hcs0
      have hlt : st.kthRecent p.1 < t := by rw [ht]; omega
      rw [if_pos hlt]
      refine ⟨hpmem1, hpne, Or.inr ⟨by omega, hinf, rfl⟩, ?_, ?_⟩
      · intro g hg
        rw [List.nil_append, List.mem_singleton] at hg
        subst hg; exact le_refl _
      · intro g hg hgne _
        rw [List.nil_append, List.mem_singleton] at hg
        exact absurd hg hgne
    | some f =>
      have hinv' : f ∈ cs ∧ st.times f ≠ [] ∧
          ((t = -1 ∧ (st.times f).length < st.k ∧ last = st.firstAccess f) ∨
            (t ≠ -1 ∧ ¬(st.times f).length < st.k ∧ t = st.kthRecent f)) ∧
          (∀ g ∈ cs, st.kdistance g ≤ st.kdistance f) ∧
          (∀ g ∈ cs, g ≠ f → st.kdistance g = st.kdistance f →
            st.firstAccess f < st.firstAccess g) := hinv
      obtain ⟨hfmem, hfne, hcase, hmax, htie⟩ := hinv'
      obtain ⟨qf, hqfmem, hqf1, hqfflag, _⟩ := candidates_spec st f (hcs f hfmem)
      have hpf_ne : p.1 ≠ f := fun he => hfresh (he ▸ hfmem)
      rcases hcase with ⟨ht1, hfinf, hlast⟩ | ⟨ht1, hffin, htk⟩
      · rw [if_neg (by rw [ht1]; omega)]
        refine ⟨List.mem_append_left _ hfmem, hfne, Or.inl ⟨ht1, hfinf, hlast⟩, ?_, ?_⟩
        · intro g hg
          rw [List.mem_append] at hg
          rcases hg with hg | hg
          · exact hmax g hg
          · rw [List.mem_singleton] at hg; subst hg
            rw [kdistance_fin st _ hinf, kdistance_inf st f hfinf]
            exact le_top
        · intro g hg hgne heq
          rw [List.mem_append] at hg
          rcases hg with hg | hg
          · exact htie g hg hgne heq
          · rw [List.mem_singleton] at hg; subst hg
            exfalso
            rw [kdistance_fin st _ hinf, kdistance_inf st f hfinf] at heq
            exact WithTop.coe_ne_top heq
      · by_cases hlt : st.kthRecent p.1 < t
        · rw [if_pos hlt]
          rw [htk] at hlt
          have hkdlt : st.kdistance f < st.kdistance p.1 := by
            rw [kdistance_fin st f hffin, kdistance_fin st p.1 hinf]
            exact WithTop.coe_lt_coe.mpr (by omega)
          refine ⟨hpmem1, hpne, Or.inr ⟨by omega, hinf, rfl⟩, ?_, ?_⟩
          · intro g hg
            rw [List.mem_append] at hg
            rcases hg with hg | hg
            · exact le_of_lt (lt_of_le_of_lt (hmax g hg) hkdlt)
            · rw [List.mem_singleton] at hg; subst hg; exact le_refl _
          · intro g hg hgne heq
            rw [List.mem_append] at hg
            rcases hg with hg | hg
            · exfalso
              have h1 := hmax g hg
              rw [heq] at h1
              exact absurd (lt_of_le_of_lt h1 hkdlt) (lt_irrefl _)
            · rw [List.mem_singleton] at hg; exact absurd hg hgne
        · rw [if_neg hlt]
          push_neg at hlt
          rw [htk] at hlt
          refine ⟨List.mem_append_left _ hfmem, hfne, Or.inr ⟨ht1, hffin, htk⟩, ?_, ?_⟩
          · intro g hg
            rw [List.mem_append] at hg
            rcases hg with hg | hg
            · exact hmax g hg
            · rw [List.mem_singleton] at hg; subst hg
              rw [kdistance_fin st _ hinf, kdistance_fin st f hffin]
              exact WithTop.coe_le_coe.mpr (by omega)
          · intro g hg hgne heq
            rw [List.mem_append] at hg
            rcases hg with hg | hg
            · exact htie g hg hgne heq
            · rw [List.mem_singleton] at hg; subst hg
              exfalso
              rw [kdistance_fin st _ hinf, kdistance_fin st f hffin] at heq
              rw [WithTop.coe_inj] at heq
              have heqk : st.kthRecent p.1 = st.kthRecent f := by omega
              have hflen0 : 0 < (st.times f).length := by
                cases hts : st.times f with
                | nil => exact absurd hts hfne
                | cons a l => simp
              have hkthf_mem : st.kthRecent f ∈ st.times f := by
                unfold LRUKReplacer.kthRecent
                exact listGetD_mem _ _ _ (by omega)
              have hnotin := hdisj p hpmem qf hqfmem
                (by rw [hqf1]; exact hpf_ne) _ hkth_mem
              rw [hqf1] at hnotin
              rw [heqk] at hnotin
              exact hnotin hkthf_mem

theorem evictScan_go (st : LRUKReplacer) (hwf : st.WF) :
    ∀ (l : List (Nat × Bool)) (cs : List Nat) (acc : Int × Int × Option Nat),
      (∀ q ∈ l, q ∈ st.evictable) →
      (∀ q ∈ l, q.1 ∉ cs) →
      (l.map Prod.fst).Nodup →
      (∀ g ∈ cs, g ∈ st.candidates) →
      ScanInv st cs acc →
      ScanInv st (cs ++ candidatesIn st l) (l.foldl (evictStep st) acc) := by
  intro l
  induction l with
  | nil =>
    intro cs acc _ _ _ _ hinv
    simpa [candidatesIn] using hinv
  | cons p rest ih =>
    intro cs acc hsub hfresh hnodup hcs hinv
    rw [candidatesIn_cons, List.foldl_cons]
    have hnodup' : (p.1 ∉ rest.map Prod.fst) ∧ (rest.map Prod.fst).Nodup := by
      rw [List.map_cons, List.nodup_cons] at hnodup
      exact hnodup
    by_cases hc : (p.2 && !(st.times p.1).isEmpty) = true
    · rw [if_pos hc]
      rw [Bool.and_eq_true, Bool.not_eq_true'] at hc
      have hpne : st.times p.1 ≠ [] := by
        intro hnil
        have := hc.2
        rw [hnil] at this
        simp at this
      have hstep := evictStep_inv st hwf cs acc p (hsub p (List.mem_cons_self _ _)) hc.1
        hpne (hfresh p (List.mem_cons_self _ _)) hcs hinv
      have happ := ih (cs ++ [p.1]) (evictStep st acc p)
        (fun q hq => hsub q (List.mem_cons_of_mem _ hq))
        (fun q hq => by
          rw [List.mem_append, List.mem_singleton]
          rintro (hin | hq1)
          · exact hfresh q (List.mem_cons_of_mem _ hq) hin
          · exact hnodup'.1 (hq1 ▸ List.mem_map_of_mem Prod.fst hq))
        hnodup'.2
        (fun g hg => by
          rw [List.mem_append, List.mem_singleton] at hg
          rcases hg with hg | hg
          · exact hcs g hg
          · exact hg ▸ mem_candidates_of st p (hsub p (List.mem_cons_self _ _)) hc.1 hpne)
        hstep
      rw [List.append_assoc] at happ
      exact happ
    · rw [if_neg hc]
      have hstep : evictStep st acc p = acc := by
        unfold evictStep
        by_cases hp2 : p.2 = true
        · have hE : (st.times p.1).isEmpty = true := by
            cases hE' : (st.times p.1).isEmpty with
            | true => rfl
            | false =>
              exfalso
              apply hc
              rw [hp2, hE']
              rfl
          rw [if_pos hp2, if_pos hE]
        · rw [if_neg hp2]
      rw [hstep, List.nil_append]
      exact ih cs acc (fun q hq => hsub q (List.mem_cons_of_mem _ hq))
        (fun q hq => hfresh q (List.mem_cons_of_mem _ hq)) hnodup'.2 hcs hinv

theorem evictScan_inv (st : LRUKReplacer) (hwf : st.WF) :
    ScanInv st st.candidates st.evictScan := by
  have h := evictScan_go st hwf st.evictable []
    ((st.currentTimestamp : Int) + 1, (st.currentTimestamp : Int) + 1, none)
    (fun _ hq => hq) (fun _ _ h => absurd h (List.not_mem_nil _))
    hwf.2.2.2.2 (fun g hg => absurd hg (List.not_mem_nil _)) ⟨rfl, rfl⟩
  rw [List.nil_append] at h
  exact h

theorem mapSet_keys_mem (l : List (Nat × Bool)) (f : Nat) (b : Bool) :
    ∀ y ∈ (mapSet l f b).map Prod.fst, y = f ∨ y ∈ l.map Prod.fst := by
  induction l with
  | nil =>
    intro y hy
    simp [mapSet] at hy
    exact Or.inl hy
  | cons p rest ih =>
    intro y hy
    by_cases hp : p.1 = f
    · rw [show mapSet (p :: rest) f b = (f, b) :: rest from by simp [mapSet, hp]] at hy
      rw [List.map_cons, List.mem_cons] at hy
      rcases hy with hy | hy
      · exact Or.inl hy
      · exact Or.inr (by rw [List.map_cons, List.mem_cons]; exact Or.inr hy)
    · by_cases hlt : f < p.1
      · rw [show mapSet (p :: rest) f b = (f, b) :: p :: rest from by
          simp [mapSet, hp, hlt]] at hy
        rw [List.map_cons, List.map_cons, List.mem_cons, List.mem_cons] at hy
        rcases hy with hy | hy | hy
        · exact Or.inl hy
        · exact Or.inr (by rw [List.map_cons, List.mem_cons]; exact Or.inl hy)
        · exact Or.inr (by rw [List.map_cons, List.mem_cons]; exact Or.inr hy)
      · rw [show mapSet (p :: rest) f b = p :: mapSet rest f b from by
          simp [mapSet, hp, hlt]] at hy
        rw [List.map_cons, List.mem_cons] at hy
        rcases hy with hy | hy
        · exact Or.inr (by rw [List.map_cons, List.mem_cons]; exact Or.inl hy)
        · rcases ih y hy with h | h
          · exact Or.inl h
          · exact Or.inr (by rw [List.map_cons, List.mem_cons]; exact Or.inr h)

theorem mapSet_keys_sorted (l : List (Nat × Bool)) (f : Nat) (b : Bool)
    (h : List.Pairwise (fun a b => a < b) (l.map Prod.fst)) :
    List.Pairwise (fun a b => a < b) ((mapSet l f b).map Prod.fst) := by
  induction l with
  | nil => simp [mapSet]
  | cons p rest ih =>
    rw [List.map_cons, List.pairwise_cons] at h
    by_cases hp : p.1 = f
    · rw [show mapSet (p :: rest) f b = (f, b) :: rest from by simp [mapSet, hp]]
      rw [List.map_cons, List.pairwise_cons]
      exact ⟨fun y hy => hp ▸ h.1 y hy, h.2⟩
    · by_cases hlt : f < p.1
      · rw [show mapSet (p :: rest) f b = (f, b) :: p :: rest from by
          simp [mapSet, hp, hlt]]
        rw [List.map_cons, List.map_cons, List.pairwise_cons, List.pairwise_cons]
        refine ⟨?_, h.1, h.2⟩
        intro y hy
        rw [List.mem_cons] at hy
        rcases hy with hy | hy
        · rw [hy]; exact hlt
        · exact lt_trans hlt (h.1 y hy)
      · have hgt : p.1 < f := by omega
        rw [show mapSet (p :: rest) f b = p :: mapSet rest f b from by
          simp [mapSet, hp, hlt]]
        rw [List.map_cons, List.pairwise_cons]
        refine ⟨?_, ih h.2⟩
        intro y hy
        rcases mapSet_keys_mem rest f b y hy with hy' | hy'
        · rw [hy']; exact hgt
        · exact h.1 y hy'

theorem mapErase_keys_sublist (l : List (Nat × Bool)) (f : Nat) :
    List.Sublist ((mapErase l f).map Prod.fst) (l.map Prod.fst) := by
  induction l with
  | nil => exact List.Sublist.refl _
  | cons p rest ih =>
    by_cases hp : p.1 = f
    · rw [show mapErase (p :: rest) f = rest from by simp [mapErase, hp]]
      exact List.sublist_cons_self p.1 _
    · rw [show mapErase (p :: rest) f = p :: mapErase rest f from by simp [mapErase, hp]]
      exact List.Sublist.cons₂ p.1 ih

theorem inv_implies_wf (st : LRUKReplacer) (h : st.Inv) : st.WF := by
  obtain ⟨hk, hb, hs, hd, he⟩ := h
  refine ⟨hk, ?_, ?_, ?_, ?_⟩
  · intro p _ x hx
    exact ⟨(hb p.1 x hx).1, le_of_lt (hb p.1 x hx).2⟩
  · intro p _
    exact hs p.1
  · intro p _ q _ hne x hx
    exact hd p.1 q.1 hne x hx
  · exact he.imp (fun hlt => Nat.ne_of_lt hlt)

theorem inv_new (n k : Nat) (hk : 1 ≤ k) : (LRUKReplacer.new n k).Inv := by
  refine ⟨hk, ?_, ?_, ?_, ?_⟩
  · intro f x hx
    simp [LRUKReplacer.new] at hx
  · intro f
    simp [LRUKReplacer.new]
  · intro f g _ x hx
    simp [LRUKReplacer.new] at hx
  · show List.Pairwise _ (((List.range' 1 n).map fun i => (i, false)).map Prod.fst)
    rw [List.map_map]
    show List.Pairwise _ ((List.range' 1 n).map fun i => i)
    rw [List.map_id']
    exact List.pairwise_lt_range' 1 n

theorem inv_recordAccess (st : LRUKReplacer) (f : Nat) (h : st.Inv) :
    (st.RecordAccess f).Inv := by
  obtain ⟨hk, hb, hs, hd, he⟩ := h
  have htm : ∀ g, (st.RecordAccess f).times g =
      if g = f then st.times f ++ [(st.currentTimestamp : Int)] else st.times g :=
    fun g => rfl
  have hct : (st.RecordAccess f).currentTimestamp = st.currentTimestamp + 1 := rfl
  refine ⟨hk, ?_, ?_, ?_, he⟩
  · intro g x hx
    rw [htm] at hx
    rw [hct]
    push_cast
    by_cases hg : g = f
    · rw [if_pos hg] at hx
      rw [List.mem_append, List.mem_singleton] at hx
      rcases hx with hx | hx
      · have := hb f x hx
        constructor
        · exact this.1
        · omega
      · subst hx
        constructor
        · positivity
        · omega
    · rw [if_neg hg] at hx
      have := hb g x hx
      exact ⟨this.1, by omega⟩
  · intro g
    rw [htm]
    by_cases hg : g = f
    · rw [if_pos hg]
      rw [List.pairwise_append]
      refine ⟨hs f, List.pairwise_singleton _ _, ?_⟩
      intro a ha y hy
      rw [List.mem_singleton] at hy
      subst hy
      exact (hb f a ha).2
    · rw [if_neg hg]
      exact hs g
  · intro g h' hne x hxg
    rw [htm] at hxg
    rw [htm]
    by_cases hg : g = f
    · rw [if_pos hg] at hxg
      rw [if_neg (by rw [← hg]; exact hne.symm)]
      rw [List.mem_append, List.mem_singleton] at hxg
      rcases hxg with hxg | hxg
      · exact hd f h' (hg ▸ hne) x hxg
      · subst hxg
        intro hmem
        exact absurd (hb h' _ hmem).2 (lt_irrefl _)
    · rw [if_neg hg] at hxg
      by_cases hh : h' = f
      · rw [if_pos hh]
        intro hmem
        rw [List.mem_append, List.mem_singleton] at hmem
        rcases hmem with hmem | hmem
        · exact hd g f (by rw [← hh]; exact hne) x hxg hmem
        · subst hmem
          exact absurd (hb g _ hxg).2 (lt_irrefl _)
      · rw [if_neg hh]
        exact hd g h' hne x hxg

theorem inv_setEvictable (st : LRUKReplacer) (f : Nat) (b : Bool) (h : st.Inv) :
    (st.SetEvictable f b).Inv := by
  obtain ⟨hk, hb, hs, hd, he⟩ := h
  unfold LRUKReplacer.SetEvictable
  by_cases hc : st.frames.contains f = false
  · rw [if_pos hc]
    exact ⟨hk, hb, hs, hd, he⟩
  · rw [if_neg hc]
    by_cases hcur : (mapFind? st.evictable f).getD false ≠ b
    · rw [if_pos hcur]
      exact ⟨hk, hb, hs, hd, mapSet_keys_sorted _ _ _ he⟩
    · rw [if_neg hcur]
      exact ⟨hk, hb, hs, hd, mapSet_keys_sorted _ _ _ he⟩

theorem inv_eraseFrame (st : LRUKReplacer) (f : Nat) (h : st.Inv) :
    LRUKReplacer.Inv { st with
      currSize := st.currSize - 1,
      evictable := mapErase st.evictable f,
      times := fun g => if g = f then [] else st.times g,
      frames := st.frames.filter (fun g => g != f) } := by
  obtain ⟨hk, hb, hs, hd, he⟩ := h
  refine ⟨hk, ?_, ?_, ?_, he.sublist (mapErase_keys_sublist _ _)⟩
  · intro g x hx
    have hx' : x ∈ (if g = f then [] else st.times g) := hx
    by_cases hg : g = f
    · rw [if_pos hg] at hx'
      simp at hx'
    · rw [if_neg hg] at hx'
      exact hb g x hx'
  · intro g
    show List.Pairwise _ (if g = f then [] else st.times g)
    by_cases hg : g = f
    · rw [if_pos hg]
      exact List.Pairwise.nil
    · rw [if_neg hg]
      exact hs g
  · intro g h' hne x hxg
    have hxg' : x ∈ (if g = f then [] else st.times g) := hxg
    show x ∉ (if h' = f then [] else st.times h')
    by_cases hg : g = f
    · rw [if_pos hg] at hxg'
      simp at hxg'
    · rw [if_neg hg] at hxg'
      by_cases hh : h' = f
      · rw [if_pos hh]
        exact List.not_mem_nil x
      · rw [if_neg hh]
        exact hd g h' hne x hxg'

theorem inv_remove (st : LRUKReplacer) (f : Nat) (h : st.Inv) : (st.Remove f).Inv := by
  unfold LRUKReplacer.Remove
  by_cases hc : st.frames.contains f = false
  · rw [if_pos hc]
    exact h
  · rw [if_neg hc]
    by_cases hev : (mapFind? st.evictable f).getD false = false
    · rw [if_pos hev]
      obtain ⟨hk, hb, hs, hd, he⟩ := h
      exact ⟨hk, hb, hs, hd, mapSet_keys_sorted _ _ _ he⟩
    · rw [if_neg hev]
      exact inv_eraseFrame st f h

theorem inv_evict (st : LRUKReplacer) (f : Nat) (st' : LRUKReplacer) (h : st.Inv)
    (he : st.Evict = some (f, st')) : st'.Inv := by
  unfold LRUKReplacer.Evict at he
  cases hscan : st.evictScan.2.2 with
  | none =>
    rw [hscan] at he
    cases he
  | some f' =>
    rw [hscan] at he
    injection he with h1
    injection h1 with hf hst
    subst hf
    rw [← hst]
    exact inv_eraseFrame st f' h

/-- C1: in a well-formed replacer state with at least one evictable frame
with non-empty history, `Evict` returns a candidate frame of maximum
backward K-distance (frames with fewer than `k` accesses count as `+∞`),
and among candidates of equal K-distance the one with the earliest first
recorded access. -/
theorem c1_evict_max_backward_kdistance (st : LRUKReplacer) (hwf : st.WF)
    (hne : st.candidates ≠ []) :
    ∃ f st', st.Evict = some (f, st') ∧ f ∈ st.candidates ∧
      (∀ g ∈ st.candidates, st.kdistance g ≤ st.kdistance f) ∧
      (∀ g ∈ st.candidates, st.kdistance g = st.kdistance f →
        st.firstAccess f ≤ st.firstAccess g) := by
  have hinv := evictScan_inv st hwf
  cases hscan : st.evictScan.2.2 with
  | none =>
    exfalso
    unfold ScanInv at hinv
    rw [hscan] at hinv
    exact hne hinv.2
  | some f =>
    unfold ScanInv at hinv
    rw [hscan] at hinv
    obtain ⟨hfmem, _, _, hmax, htie⟩ := hinv
    refine ⟨f, { st with
        currSize := st.currSize - 1,
        evictable := mapErase st.evictable f,
        times := fun g => if g = f then [] else st.times g,
        frames := st.frames.filter (fun g => g != f) }, ?_, hfmem, hmax, ?_⟩
    · unfold LRUKReplacer.Evict
      rw [hscan]
    · intro g hg heq
      by_cases hgf : g = f
      · subst hgf; exact le_refl _
      · exact le_of_lt (htie g hg hgf heq)

theorem mapFind?_eq_none_of_not_mem (l : List (Nat × Bool)) (f : Nat)
    (h : f ∉ l.map Prod.fst) : mapFind? l f = none := by
  induction l with
  | nil => rfl
  | cons p rest ih =>
    rw [List.map_cons, List.mem_cons] at h
    push_neg at h
    unfold mapFind?
    rw [if_neg (fun he => h.1 he.symm)]
    exact ih h.2

theorem mapFind?_mapErase_self (l : List (Nat × Bool)) (f : Nat)
    (hn : (l.map Prod.fst).Nodup) : mapFind? (mapErase l f) f = none := by
  induction l with
  | nil => rfl
  | cons p rest ih =>
    rw [List.map_cons, List.nodup_cons] at hn
    unfold mapErase
    by_cases hp : p.1 = f
    · rw [if_pos hp]
      exact mapFind?_eq_none_of_not_mem _ _ (hp ▸ hn.1)
    · rw [if_neg hp]
      unfold mapFind?
      rw [if_neg hp]
      exact ih hn.2

/-- C6 (amended): in a well-formed replacer state, `Evict` returns a victim
exactly when some evictable frame has a non-empty access history; on
success the victim is a candidate and is fully forgotten — its history is
cleared and it is removed from `frames_` and from `evictable_`. -/
theorem c6_evict_returns_victim_iff_candidate (st : LRUKReplacer) (hwf : st.WF) :
    (st.candidates = [] → st.Evict = none) ∧
    (st.candidates ≠ [] →
      ∃ f st', st.Evict = some (f, st') ∧ f ∈ st.candidates ∧
        st'.times f = [] ∧ f ∉ st'.frames ∧ mapFind? st'.evictable f = none) := by
  have hinv := evictScan_inv st hwf
  constructor
  · intro hempty
    cases hscan : st.evictScan.2.2 with
    | none =>
      unfold LRUKReplacer.Evict
      rw [hscan]
    | some f =>
      exfalso
      unfold ScanInv at hinv
      rw [hscan] at hinv
      rw [hempty] at hinv
      exact absurd hinv.1 (List.not_mem_nil f)
  · intro hne
    cases hscan : st.evictScan.2.2 with
    | none =>
      exfalso
      unfold ScanInv at hinv
      rw [hscan] at hinv
      exact hne hinv.2
    | some f =>
      unfold ScanInv at hinv
      rw [hscan] at hinv
      refine ⟨f, { st with
          currSize := st.currSize - 1,
          evictable := mapErase st.evictable f,
          times := fun g => if g = f then [] else st.times g,
          frames := st.frames.filter (fun g => g != f) }, ?_, hinv.1, ?_, ?_, ?_⟩
      · unfold LRUKReplacer.Evict
        rw [hscan]
      · simp
      · intro hmem
        rw [List.mem_filter] at hmem
        simp at hmem
      · exact mapFind?_mapErase_self _ _ hwf.2.2.2.2

/-- C1 counterexample: in the reachable, well-formed state `c1CexState`
(fresh 2-frame replacer with `k = 2`, then `SetEvictable(1, true)`,
`RecordAccess(2)`, `RecordAccess(2)`, `SetEvictable(2, true)`), frames 1 and
2 are both marked evictable; frame 1 has fewer than `k` recorded accesses,
so its backward K-distance is `+∞`, strictly above frame 2's finite
K-distance — the claim therefore requires frame 1 to be evicted — yet
`Evict` returns frame 2, because the loop skips frames whose access history
is empty (`if (cur_times.empty()) continue;`). -/
theorem c1_max_kdistance_counterexample :
    c1CexState.WF ∧
    (mapFind? c1CexState.evictable 1).getD false = true ∧
    (mapFind? c1CexState.evictable 2).getD false = true ∧
    c1CexState.kdistance 1 = ⊤ ∧
    c1CexState.kdistance 2 < c1CexState.kdistance 1 ∧
    c1CexState.Evict.map Prod.fst = some 2 := by
  decide

/-- C6 counterexample: `c6State` is reached from the constructor by a
single `SetEvictable(1, true)`; frame 1 is marked evictable, yet `Evict`
returns none because frame 1's access history is empty (the claim asserts
`Evict` succeeds whenever an evictable frame exists). -/
theorem c6_evictable_without_history_counterexample :
    (1, true) ∈ c6State.evictable ∧ c6State.Evict = none :=
  ⟨by decide, rfl⟩

/-- C6 witness: `lrukSample` (the spec's LRU-K scenario) has candidates, so
`Evict` succeeds and fully forgets the victim. -/
theorem c6_evict_returns_victim_iff_candidate_witness :
    lrukSample.WF ∧ lrukSample.candidates ≠ [] ∧
    (∃ f st', lrukSample.Evict = some (f, st') ∧ f ∈ lrukSample.candidates ∧
      st'.times f = [] ∧ f ∉ st'.frames ∧ mapFind? st'.evictable f = none) :=
  ⟨by decide, by decide,
    (c6_evict_returns_victim_iff_candidate lrukSample (by decide)).2 (by decide)⟩

/-- C1 witness: the spec's scenario state (`k = 2`, accesses 1,2,3,1,2,1,
frames 1,2,3 evictable) is well-formed and has candidates, so the victim
returned by `Evict` maximises the backward K-distance. -/
theorem c1_evict_max_backward_kdistance_witness :
    lrukSample.WF ∧ lrukSample.candidates ≠ [] ∧
    (∃ f st', lrukSample.Evict = some (f, st') ∧ f ∈ lrukSample.candidates ∧
      (∀ g ∈ lrukSample.candidates, lrukSample.kdistance g ≤ lrukSample.kdistance f) ∧
      (∀ g ∈ lrukSample.candidates, lrukSample.kdistance g = lrukSample.kdistance f →
        lrukSample.firstAccess f ≤ lrukSample.firstAccess g)) :=
  ⟨by decide, by decide,
    c1_evict_max_backward_kdistance lrukSample (by decide) (by decide)⟩

/-! ## Theorems: buffer pool manager -/

/-- C2: whenever `NewPgImp` (empty free list) or `FetchPgImp` (non-resident
page, empty free list) repurposes an evicted frame holding a dirty page,
the operation's event trace contains `WritePage(old page id, old bytes)`
strictly before the frame's `ResetMemory`. -/
theorem c2_dirty_victim_written_before_reset :
    (∀ (st : BufferPoolManagerInstance) (fid : Nat),
      st.freeList = [] →
      st.replacer.Evict.map Prod.fst = some fid →
      (st.pages fid).isDirty = true →
      precedes st.NewPgImp.2.2
        (.write (st.pages fid).pageId (st.pages fid).data) (.reset fid)) ∧
    (∀ (st : BufferPoolManagerInstance) (pid : Int) (fid : Nat),
      pid ∉ st.pagesExist →
      st.freeList = [] →
      st.replacer.Evict.map Prod.fst = some fid →
      (st.pages fid).isDirty = true →
      precedes (st.FetchPgImp pid).2.2
        (.write (st.pages fid).pageId (st.pages fid).data) (.reset fid)) := by
  constructor
  · intro st fid hfree hev hd
    cases hev' : st.replacer.Evict with
    | none => rw [hev'] at hev; cases hev
    | some pr =>
      obtain ⟨f, rep⟩ := pr
      rw [hev'] at hev
      have hf : f = fid := by
        simpa using hev
      subst hf
      unfold BufferPoolManagerInstance.NewPgImp
      simp only [hfree, hev', BufferPoolManagerInstance.AllocatePage,
        BufferPoolManagerInstance.RecordInReplacer]
      rw [hd]
      simp only [if_true]
      exact ⟨0, 1, Nat.zero_lt_one, rfl, rfl⟩
  · intro st pid fid hnr hfree hev hd
    cases hev' : st.replacer.Evict with
    | none => rw [hev'] at hev; cases hev
    | some pr =>
      obtain ⟨f, rep⟩ := pr
      rw [hev'] at hev
      have hf : f = fid := by
        simpa using hev
      subst hf
      unfold BufferPoolManagerInstance.FetchPgImp
      rw [if_neg hnr]
      simp only [hfree, hev', BufferPoolManagerInstance.AllocatePage,
        BufferPoolManagerInstance.RecordInReplacer]
      rw [hd]
      simp only [if_true]
      exact ⟨0, 1, Nat.zero_lt_one, rfl, rfl⟩

/-- C2 witness: on `c2State`, `NewPgImp` evicts frame 0 and its trace
writes page 0's bytes before resetting the frame. -/
theorem c2_dirty_victim_written_before_reset_witness :
    c2State.freeList = [] ∧
    c2State.replacer.Evict.map Prod.fst = some 0 ∧
    (c2State.pages 0).isDirty = true ∧
    precedes c2State.NewPgImp.2.2
      (.write (c2State.pages 0).pageId (c2State.pages 0).data) (.reset 0) :=
  ⟨rfl, by decide, by decide,
    c2_dirty_victim_written_before_reset.1 c2State 0 rfl (by decide) (by decide)⟩

theorem mapFind?_mapSet_self (l : List (Nat × Bool)) (f : Nat) (b : Bool) :
    mapFind? (mapSet l f b) f = some b := by
  induction l with
  | nil => simp [mapSet, mapFind?]
  | cons p rest ih =>
    by_cases hp : p.1 = f
    · simp [mapSet, mapFind?, hp]
    · by_cases hlt : f < p.1
      · simp [mapSet, mapFind?, hp, hlt]
      · simp only [mapSet, if_neg hp, if_neg hlt, mapFind?]
        exact ih

theorem setEvictable_true_lookup (st : LRUKReplacer) (f : Nat)
    (h : st.frames.contains f = true) :
    mapFind? ((st.SetEvictable f true).evictable) f = some true := by
  unfold LRUKReplacer.SetEvictable
  rw [h]
  simp only [Bool.true_eq_false, if_false]
  by_cases hcur : (mapFind? st.evictable f).getD false ≠ true
  · rw [if_pos hcur]
    exact mapFind?_mapSet_self _ _ _
  · rw [if_neg hcur]
    push_neg at hcur
    rw [hcur]
    exact mapFind?_mapSet_self _ _ _

theorem page_unpin_pinCount (p : Page) (d : Bool) :
    (p.unpin d).pinCount = p.pinCount - 1 := by
  unfold Page.unpin
  split <;> rfl

/-- C3: `UnpinPage` fails exactly on a non-resident page or a pin count of
zero; on success it decrements the pin count, `is_dirty = true` sets the
dirty flag while `is_dirty = false` leaves it unchanged, and a pin count
that reaches zero makes the frame evictable in the replacer. The
page-table/`pages_exist_` consistency of reachable states is hypothesised
(`ptFind?` yields the in-range resident frame, which the replacer tracks). -/
theorem c3_unpin_contract :
    (∀ (st : BufferPoolManagerInstance) (pid : Int) (d : Bool),
      pid ∉ st.pagesExist → st.UnpinPgImp pid d = (false, st)) ∧
    (∀ (st : BufferPoolManagerInstance) (pid : Int) (d : Bool) (fid : Nat),
      ptFind? st.pageTable pid = some fid →
      fid < st.poolSize →
      pid ∈ st.pagesExist →
      ((st.pages fid).pinCount = 0 → st.UnpinPgImp pid d = (false, st)) ∧
      ((st.pages fid).pinCount ≠ 0 →
        (st.UnpinPgImp pid d).1 = true ∧
        ((st.UnpinPgImp pid d).2.pages fid).pinCount = (st.pages fid).pinCount - 1 ∧
        (d = true → ((st.UnpinPgImp pid d).2.pages fid).isDirty = true) ∧
        (d = false → ((st.UnpinPgImp pid d).2.pages fid).isDirty = (st.pages fid).isDirty) ∧
        ((st.pages fid).pinCount - 1 = 0 → st.replacer.frames.contains fid = true →
          mapFind? (st.UnpinPgImp pid d).2.replacer.evictable fid = some true))) := by
  constructor
  · intro st pid d hnr
    unfold BufferPoolManagerInstance.UnpinPgImp
    rw [if_pos (Or.inl hnr)]
  · intro st pid d fid hfid hlt hr
    have hgetd : (ptFind? st.pageTable pid).getD 0 = fid := by rw [hfid]; rfl
    constructor
    · intro hpin
      unfold BufferPoolManagerInstance.UnpinPgImp
      rw [hgetd]
      rw [if_pos (Or.inr (Or.inr hpin))]
    · intro hpin
      have hcond : ¬(pid ∉ st.pagesExist ∨ st.poolSize ≤ (ptFind? st.pageTable pid).getD 0 ∨
          (st.pages ((ptFind? st.pageTable pid).getD 0)).pinCount = 0) := by
        rw [hgetd]
        push_neg
        exact ⟨hr, by omega, hpin⟩
      have hun : st.UnpinPgImp pid d = st.unpinApply fid d := by
        unfold BufferPoolManagerInstance.UnpinPgImp
        rw [if_neg hcond, hgetd]
      rw [hun]
      unfold BufferPoolManagerInstance.unpinApply
      by_cases hz : ((st.pages fid).unpin d).pinCount = 0
      · rw [if_pos hz]
        refine ⟨rfl, ?_, ?_, ?_, ?_⟩
        · show ((st.setPage fid ((st.pages fid).unpin d)).pages fid).pinCount = _
          unfold BufferPoolManagerInstance.setPage
          simp [page_unpin_pinCount]
        · intro hdt
          subst hdt
          show ((st.setPage fid ((st.pages fid).unpin true)).pages fid).isDirty = true
          unfold BufferPoolManagerInstance.setPage Page.unpin
          simp
        · intro hdf
          subst hdf
          show ((st.setPage fid ((st.pages fid).unpin false)).pages fid).isDirty = _
          unfold BufferPoolManagerInstance.setPage Page.unpin
          simp
        · intro _ htr
          exact setEvictable_true_lookup _ _ htr
      · rw [if_neg hz]
        rw [page_unpin_pinCount] at hz
        refine ⟨rfl, ?_, ?_, ?_, ?_⟩
        · show ((st.setPage fid ((st.pages fid).unpin d)).pages fid).pinCount = _
          unfold BufferPoolManagerInstance.setPage
          simp [page_unpin_pinCount]
        · intro hdt
          subst hdt
          show ((st.setPage fid ((st.pages fid).unpin true)).pages fid).isDirty = true
          unfold BufferPoolManagerInstance.setPage Page.unpin
          simp
        · intro hdf
          subst hdf
          show ((st.setPage fid ((st.pages fid).unpin false)).pages fid).isDirty = _
          unfold BufferPoolManagerInstance.setPage Page.unpin
          simp
        · intro hz2 _
          exact absurd hz2 hz

/-- C3 witness: on `c3State` (page 0 resident in frame 0 with pin count 1),
unpinning with `is_dirty = true` succeeds, drops the pin count to 0, sets
the dirty flag and makes frame 0 evictable. -/
theorem c3_unpin_contract_witness :
    ptFind? c3State.pageTable 0 = some 0 ∧
    0 < c3State.poolSize ∧
    (0 : Int) ∈ c3State.pagesExist ∧
    (((c3State.pages 0).pinCount = 0 → c3State.UnpinPgImp 0 true = (false, c3State)) ∧
      ((c3State.pages 0).pinCount ≠ 0 →
        (c3State.UnpinPgImp 0 true).1 = true ∧
        ((c3State.UnpinPgImp 0 true).2.pages 0).pinCount = (c3State.pages 0).pinCount - 1 ∧
        (true = true → ((c3State.UnpinPgImp 0 true).2.pages 0).isDirty = true) ∧
        (true = false →
          ((c3State.UnpinPgImp 0 true).2.pages 0).isDirty = (c3State.pages 0).isDirty) ∧
        ((c3State.pages 0).pinCount - 1 = 0 →
          c3State.replacer.frames.contains 0 = true →
          mapFind? (c3State.UnpinPgImp 0 true).2.replacer.evictable 0 = some true))) :=
  ⟨by decide, by decide, by decide,
    c3_unpin_contract.2 c3State 0 true 0 (by decide) (by decide) (by decide)⟩

end BusTub
